import Mathlib

/-!
Verification development for the symplectic operator algebra of the
`symmer` repository (files `symred/symplectic_form.py` and
`symmer/symplectic/majorana_op.py`).

Operators are embedded shallowly: a symplectic bit-matrix row becomes a
`List Bool`, an operator becomes a list of (row, coefficient) pairs
together with its qubit/site count, and the numpy complex coefficients
are modelled exactly.  Pauli-algebra definitions are generic over a
commutative ring `R` with a designated element `im` standing for the
imaginary unit `1j` of the source; concrete evaluations instantiate `R`
either at `ℂ` or at the computable exact Gaussian-integer type `CQ`
below.
-/

namespace Symmer

/-- Exact complex numbers with integer real and imaginary parts (Gaussian
integers).  This is a computable, kernel-reducible model of the numpy
`complex` coefficients used by the source: every concrete coefficient
appearing in the claims (`1`, `-1`, `1j`, `-1j`, `0`) is represented
exactly, and the generic ring parameter `R` of the Pauli algebra covers
the general complex case. -/
structure CQ where
  re : ℤ
  im : ℤ
deriving DecidableEq, Repr

namespace CQ

@[ext] theorem ext {a b : CQ} (hre : a.re = b.re) (him : a.im = b.im) : a = b := by
  cases a; cases b; simp_all

instance : Zero CQ := ⟨⟨0, 0⟩⟩
instance : One CQ := ⟨⟨1, 0⟩⟩
instance : Add CQ := ⟨fun a b => ⟨a.re + b.re, a.im + b.im⟩⟩
instance : Neg CQ := ⟨fun a => ⟨-a.re, -a.im⟩⟩
instance : Mul CQ := ⟨fun a b => ⟨a.re * b.re - a.im * b.im, a.re * b.im + a.im * b.re⟩⟩

@[simp] theorem zero_re : (0 : CQ).re = 0 := rfl
@[simp] theorem zero_im : (0 : CQ).im = 0 := rfl
@[simp] theorem one_re : (1 : CQ).re = 1 := rfl
@[simp] theorem one_im : (1 : CQ).im = 0 := rfl
@[simp] theorem add_re (a b : CQ) : (a + b).re = a.re + b.re := rfl
@[simp] theorem add_im (a b : CQ) : (a + b).im = a.im + b.im := rfl
@[simp] theorem neg_re (a : CQ) : (-a).re = -a.re := rfl
@[simp] theorem neg_im (a : CQ) : (-a).im = -a.im := rfl
@[simp] theorem mul_re (a b : CQ) : (a * b).re = a.re * b.re - a.im * b.im := rfl
@[simp] theorem mul_im (a b : CQ) : (a * b).im = a.re * b.im + a.im * b.re := rfl

instance : CommRing CQ where
  add_assoc a b c := by ext <;> simp <;> ring
  zero_add a := by ext <;> simp
  add_zero a := by ext <;> simp
  add_comm a b := by ext <;> simp <;> ring
  left_distrib a b c := by ext <;> simp <;> ring
  right_distrib a b c := by ext <;> simp <;> ring
  zero_mul a := by ext <;> simp
  mul_zero a := by ext <;> simp
  mul_assoc a b c := by ext <;> simp <;> ring
  one_mul a := by ext <;> simp
  mul_one a := by ext <;> simp
  mul_comm a b := by ext <;> simp <;> ring
  neg_add_cancel a := by ext <;> simp
  nsmul := nsmulRec
  zsmul := zsmulRec

/-- The imaginary unit `1j` inside `CQ`. -/
def imUnit : CQ := ⟨0, 1⟩

/-- Squared absolute value; `abs c > t` (performed by numpy on the
coefficient magnitude) is equivalent to `sqAbs c > t^2` for `t ≥ 0`. -/
def sqAbs (a : CQ) : ℤ := a.re ^ 2 + a.im ^ 2

end CQ

/-! ## Symplectic rows

A row of the symplectic matrix (`symp_matrix` in the source) is a 0/1
vector, embedded as a `List Bool` of length `2 * n_qubits` for Pauli
operators (X block then Z block) and length `n_sites` for Majorana
operators. -/

/-- A symplectic bit-vector. -/
abbrev Row := List Bool

/-- `X_block` of a Pauli row: the first `n` entries (source slices
`symp_matrix[:, :n_qubits]`). -/
def xBlock (n : ℕ) (r : Row) : Row := r.take n

/-- `Z_block` of a Pauli row: the entries from `n` on (source slices
`symp_matrix[:, n_qubits:]`). -/
def zBlock (n : ℕ) (r : Row) : Row := r.drop n

/-- Number of set bits of a row (`np.sum` / `np.einsum` row sums). -/
def rowWeight (r : Row) : ℕ := r.count true

/-- Popcount of the bitwise AND of two rows
(`np.sum(np.bitwise_and(a, b))`). -/
def countAnd (a b : Row) : ℕ := rowWeight (List.zipWith and a b)

/-- Bitwise XOR of two rows (`np.bitwise_xor`). -/
def rowXor (a b : Row) : Row := List.zipWith xor a b

/-- `Y_count` of a Pauli row: positions set in both the X and Z block
(source `np.bitwise_and(X_block, Z_block).sum(axis=1)`). -/
def yCount (n : ℕ) (r : Row) : ℕ := countAnd (xBlock n r) (zBlock n r)

/-- The integer key of a row used by `cleanup`:
`symp_matrix @ (1 << np.arange(width)[::-1])`, i.e. the row read as a
binary numeral with the first column most significant. -/
def rowKey (r : Row) : ℕ := r.foldl (fun acc b => 2 * acc + b.toNat) 0

/-! ## The Pauli operator type -/

/-- `PauliwordOp` from `symred/symplectic_form.py`: the symplectic matrix
(list of rows) together with the coefficient vector, stored as (row,
coefficient) pairs, plus the qubit count `n_qubits` (derived in the source
from the matrix width).  The coefficient ring `R` is a parameter; the
source works over numpy complex numbers, with the imaginary unit passed
to the operations below as `im`. -/
structure PauliwordOp (R : Type) where
  n_qubits : ℕ
  terms : List (Row × R)
deriving DecidableEq

/-- Well-formedness: every row has the full symplectic width
`2 * n_qubits` (guaranteed in the source by the numpy matrix shape). -/
def PauliwordOp.WF {R : Type} (A : PauliwordOp R) : Prop :=
  ∀ t ∈ A.terms, t.1.length = 2 * A.n_qubits

instance {R : Type} (A : PauliwordOp R) : Decidable A.WF :=
  List.decidableBAll _ _

/-! ## cleanup -/

/-- The distinct row keys of a term list in ascending order: the source
sorts the integer keys (`np.argsort`) and keeps the first index of every
group of equal keys (`np.unique`). -/
def sortedKeys {R : Type} (l : List (Row × R)) : List ℕ :=
  List.insertionSort (· ≤ ·) ((l.map (fun t => rowKey t.1)).dedup)

/-- Sum of the coefficients of all terms with row key `k`
(`np.add.reduceat` over a group of equal keys). -/
def groupCoeff {R : Type} [Add R] [Zero R] (l : List (Row × R)) (k : ℕ) : R :=
  ((l.filter (fun t => rowKey t.1 == k)).map (fun t => t.2)).sum

/-- `PauliwordOp.cleanup` on the term list: merge duplicated rows, summing
their coefficients, with the output rows ordered by ascending integer
key.  Rows whose summed coefficient is zero are kept (the source method
has no zero threshold). -/
def cleanupTerms {R : Type} [Add R] [Zero R] (l : List (Row × R)) : List (Row × R) :=
  (sortedKeys l).filterMap (fun k =>
    (l.find? (fun t => rowKey t.1 == k)).map (fun t => (t.1, groupCoeff l k)))

/-- `PauliwordOp.cleanup`. -/
def PauliwordOp.cleanup {R : Type} [CommRing R] (A : PauliwordOp R) : PauliwordOp R :=
  ⟨A.n_qubits, cleanupTerms A.terms⟩

/-! ## Arithmetic -/

/-- Stack two operators of the same width and `cleanup` — the body of
`PauliwordOp.__add__` after its equal-dimension assert has passed. -/
def addUnchecked {R : Type} [CommRing R] (A B : PauliwordOp R) : PauliwordOp R :=
  ⟨A.n_qubits, cleanupTerms (A.terms ++ B.terms)⟩

/-- `PauliwordOp.__add__`.  The source asserts
`self.n_qubits == Pword.n_qubits` (no padding), so mismatched dimensions
fail: this is modelled by returning `none`. -/
def pauliAdd {R : Type} [CommRing R] (A B : PauliwordOp R) : Option (PauliwordOp R) :=
  if A.n_qubits = B.n_qubits then some (addUnchecked A B) else none

/-- The Pauli multiplication phase of `_multiply_single_Pword`:
`(-1)^{|X_a ∧ Z_b|}` (ZX mismatches) times `(-i)^{Ya+Yb}` (sigma-to-tau)
times `i^{Y-count of the phaseless product}` (tau-to-sigma). -/
def pauliPhase {R : Type} [CommRing R] (im : R) (n : ℕ) (a b : Row) : R :=
  (-1 : R) ^ countAnd (xBlock n a) (zBlock n b) *
    (-im) ^ (yCount n a + yCount n b) * im ^ yCount n (rowXor a b)

/-- Product of one term of `self` with the single `Pword` term: row is the
XOR, coefficient is `phase_mod * self.coeff * Pword.coeff`. -/
def mulRow {R : Type} [CommRing R] (im : R) (n : ℕ) (a b : Row × R) : Row × R :=
  (rowXor a.1 b.1, pauliPhase im n a.1 b.1 * a.2 * b.2)

/-- `PauliwordOp._multiply_single_Pword` (with `_multiply_single_Pword_phaseless`
inlined): multiply every term of `A` by the single term `b`.  No cleanup is
performed here, exactly as in the source. -/
def multiplySinglePword {R : Type} [CommRing R] (im : R) (A : PauliwordOp R) (b : Row × R) :
    PauliwordOp R :=
  ⟨A.n_qubits, A.terms.map (fun a => mulRow im A.n_qubits a b)⟩

/-- `PauliwordOp.__mul__`: asserts equal qubit count (hence `none` on a
mismatch), multiplies `self` by each term of `Pword` and sums the results
with `__add__` (`reduce(lambda x,y: x+y, ...)`, which fails on an empty
term list). -/
def pauliMul {R : Type} [CommRing R] (im : R) (A B : PauliwordOp R) : Option (PauliwordOp R) :=
  if A.n_qubits = B.n_qubits then
    match B.terms.map (fun b => multiplySinglePword im A b) with
    | [] => none
    | h :: t => some (t.foldl addUnchecked h)
  else none

/-- `PauliwordOp.multiply_by_constant`. -/
def PauliwordOp.scale {R : Type} [CommRing R] (A : PauliwordOp R) (c : R) : PauliwordOp R :=
  ⟨A.n_qubits, A.terms.map (fun t => (t.1, t.2 * c))⟩

/-! ## Commutation -/

/-- The column of `Omega_Pword_symp` corresponding to row `q`: the Z block
followed by the X block (the symplectic form swaps the halves). -/
def swapHalves (n : ℕ) (q : Row) : Row := zBlock n q ++ xBlock n q

/-- One entry of `PauliwordOp.commutes_termwise`:
`(symp_a @ [Z_q | X_q]) % 2 == 0`. -/
def commutesRow (n : ℕ) (a q : Row) : Bool := countAnd a (swapHalves n q) % 2 == 0

/-- `PauliwordOp.commutes_termwise`: asserts equal qubit count (hence
`none` on a mismatch); otherwise the boolean matrix of termwise
commutation flags. -/
def pauliCommutesTermwise {R : Type} (A B : PauliwordOp R) : Option (List (List Bool)) :=
  if A.n_qubits = B.n_qubits then
    some (A.terms.map (fun a => B.terms.map (fun b => commutesRow A.n_qubits a.1 b.1)))
  else none

/-! ## Rotation -/

/-- `PauliwordOp._rotate_by_single_Pword`.  `Q` is a single term; the
source forces its coefficient to `1` (with a warning when it was not).
The rows commuting with `Q` pass through; the anticommuting rows are
transformed.  `angle` is `none` for the Clifford `π/2` case and otherwise
carries the pair `(cos θ, sin θ)` as ring elements. -/
def rotateBySinglePword {R : Type} [CommRing R] (im : R) (A : PauliwordOp R) (Q : Row × R)
    (angle : Option (R × R)) : PauliwordOp R :=
  let Qone : Row × R := (Q.1, 1)
  let com : List (Row × R) := A.terms.filter (fun t => commutesRow A.n_qubits t.1 Q.1)
  let anti : List (Row × R) := A.terms.filter (fun t => !commutesRow A.n_qubits t.1 Q.1)
  let anticomSelf : PauliwordOp R := ⟨A.n_qubits, anti⟩
  let anticomPart : PauliwordOp R :=
    match angle with
    | none => (multiplySinglePword im anticomSelf Qone).scale (-im)
    | some cs =>
        addUnchecked (anticomSelf.scale cs.1)
          ((multiplySinglePword im anticomSelf Qone).scale (-im * cs.2))
  addUnchecked ⟨A.n_qubits, com⟩ anticomPart

/-- The per-row description of `_rotate_by_single_Pword` used by the
specification: a row commuting with `Q` is unchanged; an anticommuting
row `t` becomes `-i * (t * Q)` in the Clifford case (`angle = none`) and
the pair `cos θ * t`, `-i * sin θ * (t * Q)` otherwise.  Spelled from
the specification text, to be compared with the filter-based computation
of `rotateBySinglePword`. -/
def rotStepSpec {R : Type} [CommRing R] (im : R) (n : ℕ) (Q : Row) (angle : Option (R × R))
    (t : Row × R) : List (Row × R) :=
  if commutesRow n t.1 Q then [t]
  else
    match angle with
    | none => [(rowXor t.1 Q, -im * (pauliPhase im n t.1 Q * t.2))]
    | some cs =>
        [(t.1, cs.1 * t.2), (rowXor t.1 Q, -im * cs.2 * (pauliPhase im n t.1 Q * t.2))]

/-- `StabilizerOp.update_sector`: the new coefficient vector is
`(-1)^count_nonzero(Z_block & ref_state)` per row (the stored complex
coefficients are replaced by these integers). -/
def update_sector {R : Type} (A : PauliwordOp R) (ref : List Bool) : List ℤ :=
  A.terms.map (fun t => (-1 : ℤ) ^ countAnd (zBlock A.n_qubits t.1) ref)

/-! ## bubble_sort_maj (`symmer/symplectic/majorana_op.py`) -/

/-- One unbounded bubble pass: compare adjacent entries, swap when
`arr[j] > arr[j+1]`, and count the swaps made. -/
def passFull : List ℕ → List ℕ × ℕ
  | [] => ([], 0)
  | [a] => ([a], 0)
  | a :: b :: rest =>
    if b < a then
      let p := passFull (a :: rest)
      (b :: p.1, p.2 + 1)
    else
      let p := passFull (b :: rest)
      (a :: p.1, p.2)
termination_by l => l.length
decreasing_by all_goals simp [List.length_cons]

/-- The inner loop `for j in range(0, n_sites - i - 1)` of
`bubble_sort_maj`: a bubble pass limited to `k` adjacent comparisons
(so only the first `k + 1` entries are touched). -/
def bubbleInner : ℕ → List ℕ → List ℕ × ℕ
  | 0, l => (l, 0)
  | _ + 1, [] => ([], 0)
  | _ + 1, [a] => ([a], 0)
  | k + 1, a :: b :: rest =>
    if b < a then
      let p := bubbleInner k (a :: rest)
      (b :: p.1, p.2 + 1)
    else
      let p := bubbleInner k (b :: rest)
      (a :: p.1, p.2)

/-- The outer loop `for i in range(n_sites)` of `bubble_sort_maj`: pass
`i` performs `n_sites - i - 1` comparisons, and the loop breaks early
when a pass makes no swap (`if swapped == False: break`).  Returns the
final array and the total swap count. -/
def bubbleOuter : ℕ → List ℕ → List ℕ × ℕ
  | 0, l => (l, 0)
  | r + 1, l =>
    let p := bubbleInner r l
    if p.2 = 0 then (p.1, 0)
    else
      let q := bubbleOuter r p.1
      (q.1, p.2 + q.2)

/-- `bubble_sort_maj`: bubble sort on a list of Majorana mode indices,
returning the sorted list together with `sign_dict[swap_counter % 2]`,
i.e. `+1` for an even and `-1` for an odd number of adjacent swaps. -/
def bubble_sort_maj (array : List ℕ) : List ℕ × ℤ :=
  let p := bubbleOuter array.length array
  (p.1, if p.2 % 2 = 0 then 1 else -1)

/-! ## The Majorana operator type -/

/-- `MajoranaOp` from `symmer/symplectic/majorana_op.py`: each row of the
symplectic matrix is a presence mask over the `n_sites` Majorana modes.
Coefficients are the exact complex rationals of `CQ`. -/
structure MajoranaOp where
  n_sites : ℕ
  terms : List (Row × CQ)
deriving DecidableEq

/-- Well-formedness: every row has width `n_sites`. -/
def MajoranaOp.WF (A : MajoranaOp) : Prop := ∀ t ∈ A.terms, t.1.length = A.n_sites

instance (A : MajoranaOp) : Decidable A.WF := List.decidableBAll _ _

/-- The threshold test `abs(coeff) > zero_threshold` of `MajoranaOp.cleanup`
with the default `zero_threshold = 1e-15`: squaring both (nonnegative)
sides and multiplying through by `10^30` gives the equivalent integer
comparison `10^30 * sqAbs(coeff) > 1`. -/
def aboveThreshold (c : CQ) : Bool := 10 ^ 30 * CQ.sqAbs c > 1

/-- `MajoranaOp.cleanup` on the term list: the same merge of duplicated
rows as the Pauli `cleanup`, but additionally keeping only the terms with
`abs(coeff) > zero_threshold`. -/
def majCleanupTerms (l : List (Row × CQ)) : List (Row × CQ) :=
  (cleanupTerms l).filter (fun t => aboveThreshold t.2)

/-- `MajoranaOp.cleanup` (with its default threshold). -/
def MajoranaOp.cleanup (A : MajoranaOp) : MajoranaOp :=
  ⟨A.n_sites, majCleanupTerms A.terms⟩

/-- `PauliwordOp.cleanup_zeros`: `cleanup` followed by deletion of the
terms with `abs(coeff) <= zero_threshold` (default `1e-15`); this
thresholding is deliberately not part of the Pauli `cleanup` itself. -/
def cleanup_zeros (A : PauliwordOp CQ) : PauliwordOp CQ :=
  ⟨A.n_qubits, (cleanupTerms A.terms).filter (fun t => aboveThreshold t.2)⟩

/-- Pad a row with trailing `false` columns up to width `m`
(`temp_mat[:, :self.n_sites] += self.symp_matrix`). -/
def padRow (m : ℕ) (r : Row) : Row := r ++ List.replicate (m - r.length) false

/-- Pad a whole operator with trailing zero columns up to width `m`. -/
def MajoranaOp.padTo (A : MajoranaOp) (m : ℕ) : MajoranaOp :=
  ⟨m, A.terms.map (fun t => (padRow m t.1, t.2))⟩

/-- `MajoranaOp.__add__`: when the site counts differ the smaller
operator is padded with trailing zero columns (no failure); the stacked
terms are then `cleanup`-ed. -/
def majAdd (A B : MajoranaOp) : MajoranaOp :=
  if A.n_sites < B.n_sites then
    ⟨B.n_sites, majCleanupTerms ((A.padTo B.n_sites).terms ++ B.terms)⟩
  else if B.n_sites < A.n_sites then
    ⟨A.n_sites, majCleanupTerms (A.terms ++ (B.padTo A.n_sites).terms)⟩
  else
    ⟨A.n_sites, majCleanupTerms (A.terms ++ B.terms)⟩

/-- `majAdd` in the equal-width case (no padding logic). -/
def majAddEqual (A B : MajoranaOp) : MajoranaOp :=
  ⟨A.n_sites, majCleanupTerms (A.terms ++ B.terms)⟩

/-- The active mode indices of a row, ascending
(`term_index_list[vec.astype(bool)]`). -/
def modesOf (r : Row) : List ℕ := (List.range r.length).filter (fun j => r.getD j false)

/-- One term-by-term Majorana product: the row is the XOR and the
coefficient is `coeff_a * coeff_b * reordering_sign`, where the sign
comes from `bubble_sort_maj` on the concatenated mode lists. -/
def majMulRow (a b : Row × CQ) : Row × CQ :=
  (rowXor a.1 b.1,
    a.2 * b.2 * ((bubble_sort_maj (modesOf a.1 ++ modesOf b.1)).2 : CQ))

/-- All ordered term pairs of the double loop in `MajoranaOp.__mul__`
(outer loop over `self`, inner over `M_OP`). -/
def majMulTerms (A B : List (Row × CQ)) : List (Row × CQ) :=
  A.flatMap (fun a => B.map (fun b => majMulRow a b))

/-- `MajoranaOp.__mul__`: when the site counts differ the smaller
operator is padded with trailing zero columns (no failure); the result is
`cleanup`-ed. -/
def majMul (A B : MajoranaOp) : MajoranaOp :=
  if A.n_sites < B.n_sites then
    ⟨B.n_sites, majCleanupTerms (majMulTerms (A.padTo B.n_sites).terms B.terms)⟩
  else if B.n_sites < A.n_sites then
    ⟨A.n_sites, majCleanupTerms (majMulTerms A.terms (B.padTo A.n_sites).terms)⟩
  else
    ⟨A.n_sites, majCleanupTerms (majMulTerms A.terms B.terms)⟩

/-- `majMul` in the equal-width case (no padding logic). -/
def majMulEqual (A B : MajoranaOp) : MajoranaOp :=
  ⟨A.n_sites, majCleanupTerms (majMulTerms A.terms B.terms)⟩

/-- `MajoranaOp.commutes_termwise`: site-count mismatch is handled by
restricting the overlap count to the first `min` columns (no failure).
Entry `(i,j)` is the integer `(suppA_i * suppB_j + overlap + 1) % 2`. -/
def majCommutesTermwise (A B : MajoranaOp) : List (List ℕ) :=
  let sites := if A.n_sites ≠ B.n_sites then min A.n_sites B.n_sites else A.n_sites
  A.terms.map (fun a =>
    B.terms.map (fun b =>
      (rowWeight a.1 * rowWeight b.1 + countAnd (a.1.take sites) (b.1.take sites) + 1) % 2))

/-- One elementwise `np.allclose` comparison with numpy's default
tolerances `rtol = 1e-05`, `atol = 1e-08`:
`|a - b| <= atol + rtol * |b|`. -/
def npAllclose (a b : CQ) : Prop :=
  Real.sqrt ((CQ.sqAbs (a - b) : ℤ) : ℝ) ≤
    1 / 10 ^ 8 + 1 / 10 ^ 5 * Real.sqrt ((CQ.sqAbs b : ℤ) : ℝ)

/-- `MajoranaOp.__eq__`: cleanup both operands; unequal term counts give
`False`; otherwise pad the smaller matrix with trailing zero columns and
require the padded bit-matrices to agree (the `logical_xor` sum is zero)
and the coefficient vectors to be `np.allclose`. -/
def majEq (A B : MajoranaOp) : Prop :=
  A.cleanup.terms.length = B.cleanup.terms.length ∧
  (A.cleanup.padTo (max A.cleanup.n_sites B.cleanup.n_sites)).terms.map Prod.fst =
    (B.cleanup.padTo (max A.cleanup.n_sites B.cleanup.n_sites)).terms.map Prod.fst ∧
  List.Forall₂ npAllclose (A.cleanup.terms.map Prod.snd) (B.cleanup.terms.map Prod.snd)

/-- The Hermitian phase factor `i^⌊w/2⌋` of a Majorana term of weight
`w` (eq. 10 of the reference cited in `initalize_op`). -/
def hermitianPhase (r : Row) : CQ := CQ.imUnit ^ (rowWeight r / 2)

/-- `MajoranaOp.initalize_op` for a symplectic-matrix input (the
`np.ndarray` branch), combined with the coefficient handling of
`__init__`: an empty matrix with a single coefficient denotes the
identity on 2 sites; otherwise the width must be even and must carry one
coefficient per row; when `phase_factors_included` is false each
coefficient is multiplied by the Hermitian phase factor of its row.
Failed asserts are modelled by `none`. -/
def majFromSympMatrix (mat : List Row) (coeffs : List CQ)
    (phase_factors_included : Bool) : Option MajoranaOp :=
  let build : Option (ℕ × List Row) :=
    if mat = [] ∧ coeffs.length = 1 then some (2, [[false, false]])
    else
      match mat with
      | [] => none
      | r :: _ =>
        if r.length % 2 = 0 ∧ mat.all (fun s => s.length = r.length) then
          some (r.length, mat)
        else none
  build.bind (fun nm =>
    if nm.2.length = coeffs.length then
      some ⟨nm.1, (nm.2.zip coeffs).map (fun t =>
        (t.1, if phase_factors_included then t.2 else t.2 * hermitianPhase t.1))⟩
    else none)

/-! ## One step of `StabilizerOp.stabilizer_rotations` -/

/-- Index of the first minimum of `f` on a list (`np.argmin` returns the
first position attaining the minimum), here returned as the minimising
element itself. -/
def argminBy (f : ℕ → ℕ) : List ℕ → Option ℕ
  | [] => none
  | h :: t => some (t.foldl (fun best p => if f p < f best then p else best) h)

/-- Column sums of the symplectic matrix (`np.einsum('ij->j', ...)`). -/
def colSumAt (rows : List Row) (j : ℕ) : ℕ :=
  (rows.map (fun r => (r.getD j false).toNat)).sum

/-- `update_sets` base-vector modification: set both the X and the Z bit
at the pivot qubit (`base_vector[[pX, pX + n]] = 1`). -/
def updateSetsVec (n : ℕ) (r : Row) (pX : ℕ) : Row :=
  (r.set pX true).set (pX + n) true

/-- One unfolding of `_recursive_rotate_onto_sqp` (the recursion step of
`StabilizerOp.stabilizer_rotations`): sort the rows by ascending weight
and take the first as pivot (`np.argsort(row_sum)`, modelled by a stable
sort), collect the pivot row's non-identity not-yet-used positions,
choose the one with the smallest column-occurrence count, build the
rotation by setting the pivot qubit to Y, rotate the basis by it
(Clifford, `angle = None`), and keep the rows whose symplectic weight is
not 1 as the next working basis (`reduce` over `__add__`, which on an
empty list raises and yields `None`).  The outer `none` covers the
`np.argmin` of an empty candidate list, which raises in the source. -/
def stepBasis {R : Type} [CommRing R] (im : R) (used : List ℕ) (basis : PauliwordOp R) :
    Option (Option (PauliwordOp R) × List ℕ × Row) :=
  match List.insertionSort (fun a b => rowWeight a.1 ≤ rowWeight b.1) basis.terms with
  | [] => none
  | pivotTerm :: _ =>
    let n := basis.n_qubits
    let pivotRow := pivotTerm.1
    let nonI := (List.range (2 * n)).filter
      (fun p => pivotRow.getD p false && !(used.contains p))
    (argminBy (fun p => colSumAt (basis.terms.map Prod.fst) p) nonI).map
      (fun pivotPoint =>
        let pX := pivotPoint % n
        let q := updateSetsVec n pivotRow pX
        let rotated := rotateBySinglePword im basis (q, 1) none
        let nonSqp := rotated.terms.filter (fun t => rowWeight t.1 ≠ 1)
        let newBasis : Option (PauliwordOp R) :=
          match nonSqp.map (fun t => (⟨n, [t]⟩ : PauliwordOp R)) with
          | [] => none
          | h :: hs => some (hs.foldl addUnchecked h)
        (newBasis, used ++ [pX, pX + n], q))

/-! ## One step of `majorana_rotations._recursively_rotate`

The Majorana rotation search multiplies by the fixed rotation
coefficients `np.cos(np.pi/4)` and `1j*np.sin(np.pi/4)`, which are not
Gaussian integers, so this part of the code is embedded over the exact
scalar ring `ℤ[i, √2, 1/2]`: a value is
`(re1 + re2·√2 + i·(im1 + im2·√2)) / 2^den`.  The representation is not
normalised (the same value may carry different `den`s), which is
harmless because the code never branches on coefficient equality — only
on the `1e-15` magnitude threshold, decided exactly below. -/

structure CS where
  re1 : ℤ
  re2 : ℤ
  im1 : ℤ
  im2 : ℤ
  den : ℕ
deriving DecidableEq, Repr

namespace CS

instance : Zero CS := ⟨⟨0, 0, 0, 0, 0⟩⟩

instance : One CS := ⟨⟨1, 0, 0, 0, 0⟩⟩

instance : Neg CS := ⟨fun x => ⟨-x.re1, -x.re2, -x.im1, -x.im2, x.den⟩⟩

/-- Addition brings both operands to the common denominator
`2^(max den den)`. -/
instance : Add CS :=
  ⟨fun x y =>
    let k := max x.den y.den
    ⟨x.re1 * 2 ^ (k - x.den) + y.re1 * 2 ^ (k - y.den),
     x.re2 * 2 ^ (k - x.den) + y.re2 * 2 ^ (k - y.den),
     x.im1 * 2 ^ (k - x.den) + y.im1 * 2 ^ (k - y.den),
     x.im2 * 2 ^ (k - x.den) + y.im2 * 2 ^ (k - y.den), k⟩⟩

/-- Complex multiplication over `ℤ[√2]` components (`√2 · √2 = 2`),
denominator exponents add. -/
instance : Mul CS :=
  ⟨fun x y =>
    ⟨x.re1 * y.re1 + 2 * x.re2 * y.re2 - x.im1 * y.im1 - 2 * x.im2 * y.im2,
     x.re1 * y.re2 + x.re2 * y.re1 - x.im1 * y.im2 - x.im2 * y.im1,
     x.re1 * y.im1 + 2 * x.re2 * y.im2 + x.im1 * y.re1 + 2 * x.im2 * y.re2,
     x.re1 * y.im2 + x.re2 * y.im1 + x.im1 * y.re2 + x.im2 * y.re1,
     x.den + y.den⟩⟩

/-- Complex conjugation (`np.conjugate`). -/
def conj (x : CS) : CS := ⟨x.re1, x.re2, -x.im1, -x.im2, x.den⟩

/-- The embedding of an integer (used for the `±1` reordering sign of
`bubble_sort_maj`). -/
def ofInt (z : ℤ) : CS := ⟨z, 0, 0, 0, 0⟩

/-- The imaginary unit `1j`. -/
def iUnit : CS := ⟨0, 0, 1, 0, 0⟩

/-- `np.cos(np.pi/4) = √2/2`. -/
def cosPi4 : CS := ⟨0, 1, 0, 0, 1⟩

/-- `np.sin(np.pi/4) = √2/2`. -/
def sinPi4 : CS := ⟨0, 1, 0, 0, 1⟩

/-- The value of `i^k` (the powers of the imaginary unit cycle with
period four). -/
def ipow (k : ℕ) : CS :=
  match k % 4 with
  | 0 => ⟨1, 0, 0, 0, 0⟩
  | 1 => ⟨0, 0, 1, 0, 0⟩
  | 2 => ⟨-1, 0, 0, 0, 0⟩
  | _ => ⟨0, 0, -1, 0, 0⟩

/-- Decides `X + Y·√2 > T` over the integers: move `X` across, then
compare squares on the side fixed by the sign of `Y` (exact because `√2`
is irrational, so ties can only occur at `Y = 0`). -/
def gtReal (X Y T : ℤ) : Bool :=
  let D := T - X
  if 0 ≤ Y then decide (D < 0) || decide (D ^ 2 < 2 * Y ^ 2)
  else decide (D < 0) && decide (2 * Y ^ 2 < D ^ 2)

end CS

/-- The threshold test `abs(coeff) > 1e-15` of `MajoranaOp.cleanup` at
the extended scalar type: `|z|^2 · 4^den = A + B·√2` with
`A = re1² + 2·re2² + im1² + 2·im2²` and `B = 2(re1·re2 + im1·im2)`, and
`|z|^2 > 10^(-30)` iff `10^30·A + 10^30·B·√2 > 4^den`. -/
def aboveThresholdS (z : CS) : Bool :=
  CS.gtReal (10 ^ 30 * (z.re1 ^ 2 + 2 * z.re2 ^ 2 + z.im1 ^ 2 + 2 * z.im2 ^ 2))
    (10 ^ 30 * (2 * (z.re1 * z.re2 + z.im1 * z.im2))) ((4 : ℤ) ^ z.den)

/-- `MajoranaOp.cleanup` on a term list with `ℤ[i, √2, 1/2]`
coefficients: the same key merge as `majCleanupTerms`, with the same
built-in `1e-15` threshold. -/
def majCleanupTermsS (l : List (Row × CS)) : List (Row × CS) :=
  (cleanupTerms l).filter (fun t => aboveThresholdS t.2)

/-- A `MajoranaOp` with `ℤ[i, √2, 1/2]` coefficients. -/
structure MajoranaOpS where
  n_sites : ℕ
  terms : List (Row × CS)
deriving DecidableEq, Repr

/-- `MajoranaOp.cleanup` (default threshold) at the extended scalar
type. -/
def MajoranaOpS.cleanup (A : MajoranaOpS) : MajoranaOpS :=
  ⟨A.n_sites, majCleanupTermsS A.terms⟩

/-- Pad with trailing zero columns up to width `m` (as in
`MajoranaOp.padTo`). -/
def MajoranaOpS.padTo (A : MajoranaOpS) (m : ℕ) : MajoranaOpS :=
  ⟨m, A.terms.map (fun t => (padRow m t.1, t.2))⟩

/-- One term-by-term product, exactly as `majMulRow`: row XOR,
coefficient `coeff_a * coeff_b * reordering_sign`. -/
def majMulRowS (a b : Row × CS) : Row × CS :=
  (rowXor a.1 b.1,
    a.2 * b.2 * CS.ofInt (bubble_sort_maj (modesOf a.1 ++ modesOf b.1)).2)

/-- All ordered term pairs of the double loop in `MajoranaOp.__mul__`. -/
def majMulTermsS (A B : List (Row × CS)) : List (Row × CS) :=
  A.flatMap (fun a => B.map (fun b => majMulRowS a b))

/-- `MajoranaOp.__mul__` at the extended scalar type: pad the smaller
operator, multiply termwise, `cleanup` the result. -/
def majMulS (A B : MajoranaOpS) : MajoranaOpS :=
  if A.n_sites < B.n_sites then
    ⟨B.n_sites, majCleanupTermsS (majMulTermsS (A.padTo B.n_sites).terms B.terms)⟩
  else if B.n_sites < A.n_sites then
    ⟨A.n_sites, majCleanupTermsS (majMulTermsS A.terms (B.padTo A.n_sites).terms)⟩
  else
    ⟨A.n_sites, majCleanupTermsS (majMulTermsS A.terms B.terms)⟩

/-- The Hermitian phase factor `i^⌊w/2⌋` at the extended scalar type. -/
def hermitianPhaseS (r : Row) : CS := CS.ipow (rowWeight r / 2)

/-- `MajoranaOp.initalize_op` for a list-of-mode-lists input (the
non-ndarray branch), combined with the coefficient handling of
`__init__`: the width is the largest mode plus one, rounded up to even
(2 when every term is empty); each term is `bubble_sort_maj`-ordered,
its coefficient picking up the reordering sign, and the row has a one at
each listed mode; when `phase_factors_included` is false each
coefficient is further multiplied by the Hermitian phase factor of its
row.  The coefficient-count assert is modelled by `none`. -/
def majFromModes (termsModes : List (List ℕ)) (coeffs : List CS)
    (phase_factors_included : Bool) : Option MajoranaOpS :=
  let n_sites : ℕ :=
    match (termsModes.flatMap id).max? with
    | none => 2
    | some m => if (m + 1) % 2 = 0 then m + 1 else m + 2
  if termsModes.length = coeffs.length then
    some ⟨n_sites, (termsModes.zip coeffs).map (fun t =>
      let srt := bubble_sort_maj t.1
      let row : Row := (List.range n_sites).map (fun j => srt.1.contains j)
      let c := t.2 * CS.ofInt srt.2
      (row, if phase_factors_included then c else c * hermitianPhaseS row))⟩
  else none

/-- `MajoranaOp.initalize_op` for a symplectic-matrix input at the
extended scalar type (same shape checks and Hermitian phases as
`majFromSympMatrix`). -/
def majFromSympMatrixS (mat : List Row) (coeffs : List CS)
    (phase_factors_included : Bool) : Option MajoranaOpS :=
  let build : Option (ℕ × List Row) :=
    if mat = [] ∧ coeffs.length = 1 then some (2, [[false, false]])
    else
      match mat with
      | [] => none
      | r :: _ =>
        if r.length % 2 = 0 ∧ mat.all (fun s => s.length = r.length) then
          some (r.length, mat)
        else none
  build.bind (fun nm =>
    if nm.2.length = coeffs.length then
      some ⟨nm.1, (nm.2.zip coeffs).map (fun t =>
        (t.1, if phase_factors_included then t.2 else t.2 * hermitianPhaseS t.1))⟩
    else none)

/-- `MajoranaOp.dagger`: every term's mode list is reversed and fed back
through the list-input constructor (whose `bubble_sort_maj` contributes
the `(-1)^(k(k-1)/2)` reordering sign), with conjugated coefficients and
`phase_factors_included=True`. -/
def MajoranaOpS.dagger (A : MajoranaOpS) : Option MajoranaOpS :=
  majFromModes (A.terms.map (fun t => (modesOf t.1).reverse))
    (A.terms.map (fun t => CS.conj t.2)) true

/-- The per-pair Z count of a row: the number of mode pairs `(2j, 2j+1)`
with both bits set (`np.logical_and(symp[:,even], symp[:,odd])` summed
along the row). -/
def zPairCount : Row → ℕ
  | a :: b :: rest => (cond (a && b) 1 0) + zPairCount rest
  | _ => 0

/-- A row holding exactly one Majorana pair `γ_{2j}γ_{2j+1}` (a single
Pauli-Z term): one full pair and total weight two. -/
def isSingleZRow (r : Row) : Bool := zPairCount r == 1 && rowWeight r == 2

/-- `majorana_rotations._delete_reduced_rows`: split off the single-Z
rows, keep the rest, and report the mode columns whose sum over the
extracted rows is one (the `maj_z_pair_indices` fed into
`used_indices`). -/
def deleteReducedRows (terms : List (Row × CS)) (width : ℕ) :
    List ℕ × List (Row × CS) × List (Row × CS) :=
  let singles := terms.filter (fun t => isSingleZRow t.1)
  let reduced := terms.filter (fun t => !isSingleZRow t.1)
  let zinds := (List.range width).filter
    (fun j => colSumAt (singles.map Prod.fst) j == 1)
  (zinds, singles, reduced)

/-- The pivot row of `_recursively_rotate`:
`symp_matrix[np.lexsort(symp_matrix.T)[::-1]][0]` sorts the rows by the
integer value read with the LAST mode column most significant
(`np.lexsort` keys from its last row) and takes the largest, the
reversal making the later row win ties (`np.lexsort` is stable). -/
def lexPivot (rows : List Row) : Option Row :=
  match rows with
  | [] => none
  | h :: t => some (t.foldl (fun best r =>
      if rowKey best.reverse ≤ rowKey r.reverse then r else best) h)

/-- Whether the mode pair containing mode `m` is touched by the row
(`np.logical_or(pivot_row[even_inds], pivot_row[odd_inds])`, both modes
`2i` and `2i+1` of every touched pair entering `indice_full`). -/
def pairTouched (r : Row) (m : ℕ) : Bool :=
  r.getD (2 * (m / 2)) false || r.getD (2 * (m / 2) + 1) false

/-- The outcome of one call of `_recursively_rotate`: either the basis
was empty after `_delete_reduced_rows` and the recursion returns
(`finished`), or a rotation step was performed (`stepped`), carrying the
updated `used_indices`, the single-Z rows dropped by
`_delete_reduced_rows`, the rotations appended to `maj_rotations`, the
`rotated_term` appended to `rotated_basis`, and the operator handed to
the recursive call. -/
inductive MajStepResult where
  | finished (used : List ℕ) (singles : List (Row × CS))
  | stepped (used : List ℕ) (singles : List (Row × CS))
      (rotations : List MajoranaOpS) (rotated : MajoranaOpS) (next : MajoranaOpS)
deriving DecidableEq, Repr

/-- One unfolding of `majorana_rotations._recursively_rotate`: delete
the single-Z rows and record their columns in `used_indices`; if nothing
is left, return.  Otherwise pick the `lexsort` pivot row, take the
smallest not-yet-used mode of a touched pair minimising
`pivot_row * col_sum` (`np.argmin`, raising on an empty candidate list —
the outer `none`), and name its pair `(pe, po)`.  A full Z pair is first
rotated by `cos(π/4) + i·sin(π/4)·γ₀⋯γ_{po-1}` (conjugation by
`maj_rot_op`, each `*` being `__mul__` with its built-in cleanup); a
pair with neither bit raises.  The second rotation flips both pivot-pair
bits of the transformed pivot's first row and conjugates; the result of
conjugating the working basis — NOT cleaned beyond the cleanups inside
`__mul__` — is handed to the recursive call, and the conjugated pivot
becomes the logged `rotated_term`. -/
def majRecStep (used : List ℕ) (basis : MajoranaOpS) : Option MajStepResult := do
  let del := deleteReducedRows basis.terms basis.n_sites
  let used' := used ++ del.1.filter (fun j => !(used.contains j))
  let reduced : MajoranaOpS := ⟨basis.n_sites, del.2.2⟩
  if reduced.terms.isEmpty then
    return .finished used' del.2.1
  let pivotRow ← lexPivot (reduced.terms.map Prod.fst)
  let nonI := (List.range basis.n_sites).filter
    (fun m => pairTouched pivotRow m && !(used'.contains m))
  let pivotPoint ← argminBy
    (fun m => (if pivotRow.getD m false then 1 else 0) *
      colSumAt (reduced.terms.map Prod.fst) m) nonI
  let pe := 2 * (pivotPoint / 2)
  let po := pe + 1
  let pivotOp ← majFromSympMatrixS [pivotRow] [1] false
  let branch ←
    if pivotRow.getD pe false && pivotRow.getD po false then do
      let R1 ← majFromModes [[], List.range po]
        [CS.cosPi4, CS.iUnit * CS.sinPi4] false
      let R1d ← R1.dagger
      pure ([R1], (majMulS (majMulS R1 reduced) R1d).cleanup,
        (majMulS (majMulS R1 pivotOp) R1d).cleanup)
    else if !(pivotRow.getD pe false) && !(pivotRow.getD po false) then none
    else pure (([] : List MajoranaOpS), reduced, pivotOp)
  match branch.2.2.terms with
  | [] => none
  | (r0, _) :: _ =>
    if po < r0.length ∧ r0.length = pivotRow.length then
      let rotOp2 := (r0.set pe (!(r0.getD pe false))).set po (!(r0.getD po false))
      let R2 ← majFromSympMatrixS [List.replicate pivotRow.length false, rotOp2]
        [CS.cosPi4, CS.iUnit * CS.sinPi4] false
      let R2d ← R2.dagger
      pure (.stepped used' del.2.1 (branch.1 ++ [R2])
        ((majMulS (majMulS R2 branch.2.2) R2d).cleanup)
        (majMulS (majMulS R2 branch.2.1) R2d))
    else none

/-! ## Lemmas: the row key is injective on rows of a fixed width -/

theorem rowKey_foldl (r : Row) (acc : ℕ) :
    r.foldl (fun a b => 2 * a + b.toNat) acc =
      acc * 2 ^ r.length + r.foldl (fun a b => 2 * a + b.toNat) 0 := by
  induction r generalizing acc with
  | nil => simp
  | cons c r ih =>
    simp only [List.foldl_cons, List.length_cons]
    rw [ih (2 * acc + c.toNat), ih (2 * 0 + c.toNat)]
    ring

theorem rowKey_cons (b : Bool) (r : Row) :
    rowKey (b :: r) = b.toNat * 2 ^ r.length + rowKey r := by
  simp only [rowKey, List.foldl_cons]
  rw [rowKey_foldl]
  ring_nf

theorem rowKey_lt (r : Row) : rowKey r < 2 ^ r.length := by
  induction r with
  | nil => simp [rowKey]
  | cons b r ih =>
    rw [rowKey_cons]
    have h2 : (0:ℕ) < 2 ^ r.length := Nat.pos_pow_of_pos _ (by omega)
    simp only [List.length_cons, pow_succ]
    cases b <;> simp only [Bool.toNat_true, Bool.toNat_false, one_mul, zero_mul] <;> omega

theorem rowKey_inj {a b : Row} (hlen : a.length = b.length) (hkey : rowKey a = rowKey b) :
    a = b := by
  induction a generalizing b with
  | nil =>
    cases b with
    | nil => rfl
    | cons y bs => simp at hlen
  | cons x as ih =>
    cases b with
    | nil => simp at hlen
    | cons y bs =>
      simp only [List.length_cons, Nat.succ.injEq] at hlen
      rw [rowKey_cons, rowKey_cons, hlen] at hkey
      have ha := rowKey_lt as
      have hb := rowKey_lt bs
      rw [hlen] at ha
      have hxy : x = y ∧ rowKey as = rowKey bs := by
        cases x <;> cases y <;>
          simp only [Bool.toNat_true, Bool.toNat_false, one_mul, zero_mul, zero_add,
            true_and, and_true, eq_self_iff_true] at hkey ⊢ <;>
          omega
      obtain ⟨hx, hk2⟩ := hxy
      subst hx
      rw [ih hlen hk2]

/-! ## Lemmas: `sortedKeys` and `cleanupTerms` -/

theorem mem_sortedKeys {R : Type} {l : List (Row × R)} {k : ℕ} :
    k ∈ sortedKeys l ↔ ∃ t ∈ l, rowKey t.1 = k := by
  unfold sortedKeys
  rw [(List.perm_insertionSort _ _).mem_iff, List.mem_dedup, List.mem_map]

theorem sortedKeys_sorted {R : Type} (l : List (Row × R)) :
    List.Sorted (· ≤ ·) (sortedKeys l) :=
  List.sorted_insertionSort _ _

theorem sortedKeys_nodup {R : Type} (l : List (Row × R)) : (sortedKeys l).Nodup :=
  ((List.perm_insertionSort _ _).nodup_iff).2 (List.nodup_dedup _)

theorem sortedKeys_perm {R : Type} {l₁ l₂ : List (Row × R)} (h : List.Perm l₁ l₂) :
    sortedKeys l₁ = sortedKeys l₂ := by
  apply List.eq_of_perm_of_sorted _ (sortedKeys_sorted l₁) (sortedKeys_sorted l₂)
  exact (List.perm_insertionSort _ _).trans
    (((h.map _).dedup).trans (List.perm_insertionSort _ _).symm)

theorem sortedKeys_eq_of_mem_iff {R : Type} {l₁ l₂ : List (Row × R)}
    (h : ∀ k, (∃ t ∈ l₁, rowKey t.1 = k) ↔ ∃ t ∈ l₂, rowKey t.1 = k) :
    sortedKeys l₁ = sortedKeys l₂ := by
  apply List.eq_of_perm_of_sorted _ (sortedKeys_sorted l₁) (sortedKeys_sorted l₂)
  apply List.perm_of_nodup_nodup_toFinset_eq (sortedKeys_nodup l₁) (sortedKeys_nodup l₂)
  ext k
  simp only [List.mem_toFinset, mem_sortedKeys]
  exact h k

theorem find?_eq_head?_filter {α : Type} (p : α → Bool) (l : List α) :
    l.find? p = (l.filter p).head? := by
  induction l with
  | nil => rfl
  | cons a l ih =>
    rw [List.find?_cons, List.filter_cons]
    by_cases h : p a
    · simp [h]
    · simp only [h]
      simp only [Bool.false_eq_true, if_false] at *
      exact ih

/-- Every entry produced by `cleanupTerms` carries the first input row of
its key group together with the summed coefficient of that group. -/
theorem cleanupTerms_mem {R : Type} [CommRing R] {l : List (Row × R)} {e : Row × R}
    (he : e ∈ cleanupTerms l) :
    ∃ t ∈ l, rowKey t.1 = rowKey e.1 ∧ e.1 = t.1 ∧ e.2 = groupCoeff l (rowKey e.1) := by
  unfold cleanupTerms at he
  rw [List.mem_filterMap] at he
  obtain ⟨k, _hk, hsome⟩ := he
  rw [Option.map_eq_some'] at hsome
  obtain ⟨t, hfind, rfl⟩ := hsome
  have hmem := List.mem_of_find?_eq_some hfind
  have hpred := List.find?_some hfind
  simp only [beq_iff_eq] at hpred
  exact ⟨t, hmem, by simp [hpred], rfl, by simp [hpred]⟩

/-- Every input row is represented in the `cleanupTerms` output
(regardless of its summed coefficient). -/
theorem cleanupTerms_covers {R : Type} [CommRing R] {l : List (Row × R)} {s : Row × R}
    (m : ℕ) (hwf : ∀ t ∈ l, t.1.length = m) (hs : s ∈ l) :
    ∃ e ∈ cleanupTerms l, e.1 = s.1 := by
  have hk : rowKey s.1 ∈ sortedKeys l := mem_sortedKeys.2 ⟨s, hs, rfl⟩
  have hfind : ∃ t, l.find? (fun t => rowKey t.1 == rowKey s.1) = some t := by
    rcases hfound : l.find? (fun t => rowKey t.1 == rowKey s.1) with _ | t
    · rw [List.find?_eq_none] at hfound
      exact absurd (by simp : (rowKey s.1 == rowKey s.1) = true) (hfound s hs)
    · exact ⟨t, hfound⟩
  obtain ⟨t, hfound⟩ := hfind
  have hmem := List.mem_of_find?_eq_some hfound
  have hpred := List.find?_some hfound
  simp only [beq_iff_eq] at hpred
  refine ⟨(t.1, groupCoeff l (rowKey s.1)), ?_, ?_⟩
  · unfold cleanupTerms
    rw [List.mem_filterMap]
    exact ⟨rowKey s.1, hk, by rw [hfound]; rfl⟩
  · exact rowKey_inj (by rw [hwf t hmem, hwf s hs]) hpred

theorem find?_key_some {R : Type} {l : List (Row × R)} {k : ℕ}
    (hk : ∃ t ∈ l, rowKey t.1 = k) :
    ∃ t, l.find? (fun t => rowKey t.1 == k) = some t ∧ t ∈ l ∧ rowKey t.1 = k := by
  rcases hfound : l.find? (fun t => rowKey t.1 == k) with _ | t
  · exfalso
    rw [List.find?_eq_none] at hfound
    obtain ⟨s, hs, hks⟩ := hk
    exact hfound s hs (by simp [hks])
  · exact ⟨t, hfound, List.mem_of_find?_eq_some hfound,
      by simpa using List.find?_some hfound⟩

theorem groupCoeff_perm {R : Type} [CommRing R] {l₁ l₂ : List (Row × R)}
    (h : List.Perm l₁ l₂) (k : ℕ) : groupCoeff l₁ k = groupCoeff l₂ k :=
  ((h.filter _).map _).sum_eq

theorem groupCoeff_append {R : Type} [CommRing R] (x y : List (Row × R)) (k : ℕ) :
    groupCoeff (x ++ y) k = groupCoeff x k + groupCoeff y k := by
  simp [groupCoeff, List.filter_append]

theorem groupCoeff_eq_zero {R : Type} [CommRing R] {l : List (Row × R)} {k : ℕ}
    (h : ∀ t ∈ l, rowKey t.1 ≠ k) : groupCoeff l k = 0 := by
  have hfil : l.filter (fun t => rowKey t.1 == k) = [] := by
    rw [List.filter_eq_nil_iff]
    intro t ht
    simpa using h t ht
  simp [groupCoeff, hfil]

/-- The `filterMap` producing `cleanupTerms` applied to keyed entries:
mapping the keys back recovers the key list. -/
theorem filterMap_keyed_map {R : Type} (ks : List ℕ) (f : ℕ → Option (Row × R))
    (hf : ∀ k ∈ ks, ∃ e, f k = some e ∧ rowKey e.1 = k) :
    (ks.filterMap f).map (fun t => rowKey t.1) = ks := by
  induction ks with
  | nil => rfl
  | cons k0 ks ih =>
    obtain ⟨e0, he0, hk0⟩ := hf k0 (by simp)
    rw [List.filterMap_cons, he0, List.map_cons, hk0,
      ih (fun k hk => hf k (List.mem_cons_of_mem _ hk))]

/-- Filtering the keyed `filterMap` by a key extracts exactly the entry
of that key. -/
theorem filterMap_keyed_filter {R : Type} (ks : List ℕ) (f : ℕ → Option (Row × R))
    (hf : ∀ k ∈ ks, ∃ e, f k = some e ∧ rowKey e.1 = k) (hnd : ks.Nodup) (k : ℕ) :
    (ks.filterMap f).filter (fun t => rowKey t.1 == k) =
      if k ∈ ks then (f k).toList else [] := by
  induction ks with
  | nil => simp
  | cons k0 ks ih =>
    obtain ⟨e0, he0, hk0⟩ := hf k0 (by simp)
    have hnd0 := List.nodup_cons.1 hnd
    rw [List.filterMap_cons, he0, List.filter_cons]
    by_cases hkk : k = k0
    · subst hkk
      have hnotin : k ∉ ks := hnd0.1
      rw [ih (fun k2 hk2 => hf k2 (List.mem_cons_of_mem _ hk2)) hnd0.2]
      simp [hk0, he0, hnotin]
    · rw [ih (fun k2 hk2 => hf k2 (List.mem_cons_of_mem _ hk2)) hnd0.2]
      have hne : (rowKey e0.1 == k) = false := by
        rw [hk0]
        exact beq_eq_false_iff_ne.2 (Ne.symm hkk)
      rw [hne]
      simp [hkk]

theorem cleanupTerms_def {R : Type} [CommRing R] (l : List (Row × R)) :
    cleanupTerms l = (sortedKeys l).filterMap (fun k =>
      (l.find? (fun t => rowKey t.1 == k)).map (fun t => (t.1, groupCoeff l k))) := rfl

/-- The `find?`-is-some property used by `cleanupTerms` over its own key
list. -/
theorem cleanup_f_spec {R : Type} [CommRing R] (l : List (Row × R)) :
    ∀ k ∈ sortedKeys l,
      ∃ e, ((l.find? (fun t => rowKey t.1 == k)).map (fun t => (t.1, groupCoeff l k))) =
          some e ∧ rowKey e.1 = k := by
  intro k hk
  obtain ⟨t, hfound, _, hkey⟩ := find?_key_some (mem_sortedKeys.1 hk)
  exact ⟨(t.1, groupCoeff l k), by rw [hfound]; rfl, hkey⟩

/-- The keys of the cleaned-up list are exactly the sorted distinct keys
of the input. -/
theorem cleanupTerms_keys {R : Type} [CommRing R] (l : List (Row × R)) :
    (cleanupTerms l).map (fun t => rowKey t.1) = sortedKeys l :=
  filterMap_keyed_map _ _ (cleanup_f_spec l)

/-- `cleanupTerms` preserves every key group sum. -/
theorem groupCoeff_cleanupTerms {R : Type} [CommRing R] (l : List (Row × R)) (k : ℕ) :
    groupCoeff (cleanupTerms l) k = groupCoeff l k := by
  by_cases hk : k ∈ sortedKeys l
  · obtain ⟨t, hfound, _, hkey⟩ := find?_key_some (mem_sortedKeys.1 hk)
    unfold groupCoeff
    unfold cleanupTerms
    rw [filterMap_keyed_filter _ _ (cleanup_f_spec l) (sortedKeys_nodup l) k, if_pos hk,
      hfound]
    simp [groupCoeff]
  · rw [groupCoeff_eq_zero, groupCoeff_eq_zero]
    · intro t ht hc
      exact hk (mem_sortedKeys.2 ⟨t, ht, hc⟩)
    · intro t ht hc
      apply hk
      obtain ⟨s, hs, hks, _, _⟩ := cleanupTerms_mem ht
      exact mem_sortedKeys.2 ⟨s, hs, by rw [hks, hc]⟩

/-- `cleanupTerms` maps well-formed inputs to well-formed outputs, with
the same row width. -/
theorem cleanupTerms_wf {R : Type} [CommRing R] {m : ℕ} {l : List (Row × R)}
    (hwf : ∀ t ∈ l, t.1.length = m) : ∀ e ∈ cleanupTerms l, e.1.length = m := by
  intro e he
  obtain ⟨t, ht, _, h1, _⟩ := cleanupTerms_mem he
  rw [h1]
  exact hwf t ht

/-- `cleanupTerms` is invariant under permutation of the input terms
(for a fixed row width). -/
theorem cleanupTerms_perm {R : Type} [CommRing R] {m : ℕ} {l₁ l₂ : List (Row × R)}
    (hwf : ∀ t ∈ l₁, t.1.length = m) (h : List.Perm l₁ l₂) :
    cleanupTerms l₁ = cleanupTerms l₂ := by
  have hwf₂ : ∀ t ∈ l₂, t.1.length = m := fun t ht => hwf t (h.mem_iff.2 ht)
  unfold cleanupTerms
  rw [sortedKeys_perm h]
  apply List.filterMap_congr
  intro k hk
  obtain ⟨t₂, hfound₂, hmem₂, hkey₂⟩ := find?_key_some (mem_sortedKeys.1 hk)
  have hk₁ : ∃ t ∈ l₁, rowKey t.1 = k := by
    obtain ⟨t, ht, hc⟩ := mem_sortedKeys.1 hk
    exact ⟨t, h.mem_iff.2 ht, hc⟩
  obtain ⟨t₁, hfound₁, hmem₁, hkey₁⟩ := find?_key_some hk₁
  rw [hfound₁, hfound₂]
  have hrow : t₁.1 = t₂.1 :=
    rowKey_inj (by rw [hwf t₁ hmem₁, hwf₂ t₂ hmem₂]) (by rw [hkey₁, hkey₂])
  simp [hrow, groupCoeff_perm h]

/-- Cleaning up an already-cleaned right summand gives the same result as
cleaning the raw concatenation: the inner `cleanup` performed by the
source's `__add__` chains is absorbed. -/
theorem cleanupTerms_append_cleanup {R : Type} [CommRing R] (x y : List (Row × R)) :
    cleanupTerms (x ++ cleanupTerms y) = cleanupTerms (x ++ y) := by
  have hkeys : sortedKeys (x ++ cleanupTerms y) = sortedKeys (x ++ y) := by
    apply sortedKeys_eq_of_mem_iff
    intro k
    constructor
    · rintro ⟨t, ht, hc⟩
      rcases List.mem_append.1 ht with hx | hy
      · exact ⟨t, List.mem_append.2 (Or.inl hx), hc⟩
      · obtain ⟨s, hs, hks, _, _⟩ := cleanupTerms_mem hy
        exact ⟨s, List.mem_append.2 (Or.inr hs), by rw [hks, hc]⟩
    · rintro ⟨t, ht, hc⟩
      rcases List.mem_append.1 ht with hx | hy
      · exact ⟨t, List.mem_append.2 (Or.inl hx), hc⟩
      · have hky : k ∈ sortedKeys y := mem_sortedKeys.2 ⟨t, hy, hc⟩
        obtain ⟨e, he, hke⟩ := cleanup_f_spec y k hky
        rw [Option.map_eq_some'] at he
        obtain ⟨s, hsfound, rfl⟩ := he
        refine ⟨(s.1, groupCoeff y k), List.mem_append.2 (Or.inr ?_), hke⟩
        unfold cleanupTerms
        rw [List.mem_filterMap]
        exact ⟨k, hky, by rw [hsfound]; rfl⟩
  rw [cleanupTerms_def (x ++ cleanupTerms y), cleanupTerms_def (x ++ y), hkeys]
  apply List.filterMap_congr
  intro k hk
  have hcoeff : groupCoeff (x ++ cleanupTerms y) k = groupCoeff (x ++ y) k := by
    rw [groupCoeff_append, groupCoeff_append, groupCoeff_cleanupTerms]
  rw [List.find?_append, List.find?_append]
  rcases hfx : x.find? (fun t => rowKey t.1 == k) with _ | t
  · have hky : k ∈ sortedKeys y := by
      have hkxy : k ∈ sortedKeys (x ++ y) := hkeys ▸ hk
      obtain ⟨t, ht, hc⟩ := mem_sortedKeys.1 hkxy
      rcases List.mem_append.1 ht with hx | hy
      · exfalso
        rw [List.find?_eq_none] at hfx
        exact hfx t hx (by simp [hc])
      · exact mem_sortedKeys.2 ⟨t, hy, hc⟩
    obtain ⟨s, hsfound, _, _⟩ := find?_key_some (mem_sortedKeys.1 hky)
    have hfc : (cleanupTerms y).find? (fun t => rowKey t.1 == k) =
        some (s.1, groupCoeff y k) := by
      rw [find?_eq_head?_filter]
      unfold cleanupTerms
      rw [filterMap_keyed_filter _ _ (cleanup_f_spec y) (sortedKeys_nodup y) k,
        if_pos hky, hsfound]
      rfl
    simp [hfc, hsfound, hcoeff, hfx]
  · simp [hcoeff, hfx]

theorem cleanupTerms_singleton {R : Type} [CommRing R] (t : Row × R) :
    cleanupTerms [t] = [t] := by
  unfold cleanupTerms sortedKeys groupCoeff
  simp [List.insertionSort, List.find?_cons]

/-! ## Lemmas: splitting a `flatMap` along a filter -/

theorem flatMap_perm_filter {α β : Type} (p : α → Bool) (f : α → List β) (l : List α) :
    List.Perm (l.flatMap f)
      ((l.filter p).flatMap f ++ (l.filter (fun a => !p a)).flatMap f) := by
  induction l with
  | nil => simp
  | cons a l ih =>
    by_cases h : p a
    · simp only [List.flatMap_cons, List.filter_cons, h, if_pos, Bool.not_true,
        Bool.false_eq_true, if_false]
      simpa using ih.append_left (f a)
    · simp only [List.flatMap_cons, List.filter_cons, h, Bool.false_eq_true, if_false,
        Bool.not_false, if_pos]
      refine (ih.append_left (f a)).trans ?_
      rw [← List.append_assoc]
      refine ((List.perm_append_comm).append_right _).trans ?_
      rw [List.append_assoc]

theorem flatMap_eq_map_of_singleton {α β : Type} {f : α → List β} {g : α → β}
    {l : List α} (h : ∀ a ∈ l, f a = [g a]) : l.flatMap f = l.map g := by
  induction l with
  | nil => rfl
  | cons a l ih =>
    rw [List.flatMap_cons, h a (by simp), List.map_cons,
      ih (fun b hb => h b (List.mem_cons_of_mem _ hb))]
    rfl

theorem flatMap_congr_mem {α β : Type} {f g : α → List β} {l : List α}
    (h : ∀ a ∈ l, f a = g a) : l.flatMap f = l.flatMap g := by
  induction l with
  | nil => rfl
  | cons a l ih =>
    rw [List.flatMap_cons, List.flatMap_cons, h a (by simp),
      ih (fun b hb => h b (List.mem_cons_of_mem _ hb))]

theorem flatMap_pair_perm {α β : Type} (g h : α → β) (l : List α) :
    List.Perm (l.flatMap (fun a => [g a, h a])) (l.map g ++ l.map h) := by
  induction l with
  | nil => simp
  | cons a l ih =>
    simp only [List.flatMap_cons, List.map_cons, List.cons_append]
    refine ((ih.cons (h a)).cons (g a)).trans ?_
    exact List.Perm.cons _ (List.perm_middle.symm)

/-- Claim C2: for every `PauliwordOp A`, every single-term `Q` with
coefficient 1 and every angle, `_rotate_by_single_Pword` leaves the rows
of `A` commuting with `Q` unchanged and transforms each anticommuting row
`t` into `cos θ · t - i sin θ · (t·Q)` (the pair `(cos θ, sin θ)` is the
`angle` argument); with the angle omitted each anticommuting row becomes
exactly `-i · (t·Q)`.  Stated as: the rotated operator equals the cleanup
of the per-row spec transformation `rotStepSpec` applied to every row. -/
theorem C2_rotation_refines_spec {R : Type} [CommRing R] (im : R) (A : PauliwordOp R)
    (Q : Row × R) (angle : Option (R × R)) (hA : A.WF) (hQ : Q.1.length = 2 * A.n_qubits)
    (_hc : Q.2 = 1) :
    (rotateBySinglePword im A Q angle).terms =
      cleanupTerms (A.terms.flatMap (rotStepSpec im A.n_qubits Q.1 angle)) := by
  have hwfstep : ∀ e ∈ A.terms.flatMap (rotStepSpec im A.n_qubits Q.1 angle),
      e.1.length = 2 * A.n_qubits := by
    intro e he
    rw [List.mem_flatMap] at he
    obtain ⟨a, ha, hea⟩ := he
    have hlen : a.1.length = 2 * A.n_qubits := hA a ha
    have hxorlen : (rowXor a.1 Q.1).length = 2 * A.n_qubits := by
      simp [rowXor, hlen, hQ]
    unfold rotStepSpec at hea
    by_cases hcm : commutesRow A.n_qubits a.1 Q.1
    · rw [if_pos hcm] at hea
      rw [List.mem_singleton] at hea
      rw [hea]
      exact hlen
    · rw [if_neg hcm] at hea
      cases angle with
      | none =>
        rw [List.mem_singleton] at hea
        rw [hea]
        exact hxorlen
      | some cs =>
        rcases List.mem_cons.1 hea with h1 | h1
        · rw [h1]
          exact hlen
        · rw [List.mem_singleton] at h1
          rw [h1]
          exact hxorlen
  have hsing1 : ∀ a ∈ A.terms.filter (fun t => commutesRow A.n_qubits t.1 Q.1),
      rotStepSpec im A.n_qubits Q.1 angle a = [a] := by
    intro a ha
    rw [List.mem_filter] at ha
    unfold rotStepSpec
    rw [if_pos ha.2]
  cases angle with
  | none =>
    have hsing2 : ∀ a ∈ A.terms.filter (fun t => !commutesRow A.n_qubits t.1 Q.1),
        rotStepSpec im A.n_qubits Q.1 none a =
          [(rowXor a.1 Q.1, pauliPhase im A.n_qubits a.1 Q.1 * a.2 * 1 * -im)] := by
      intro a ha
      rw [List.mem_filter] at ha
      have hcm : ¬ commutesRow A.n_qubits a.1 Q.1 = true := by simpa using ha.2
      unfold rotStepSpec
      rw [if_neg hcm]
      simp only [List.cons.injEq, Prod.mk.injEq]
      and_intros <;> first | rfl | ring
    have hperm := flatMap_perm_filter (fun t => commutesRow A.n_qubits t.1 Q.1)
      (rotStepSpec im A.n_qubits Q.1 none) A.terms
    rw [flatMap_eq_map_of_singleton hsing1, List.map_id',
      flatMap_eq_map_of_singleton hsing2] at hperm
    rw [cleanupTerms_perm hwfstep hperm]
    simp only [rotateBySinglePword, addUnchecked, PauliwordOp.scale, multiplySinglePword,
      List.map_map]
    rfl
  | some cs =>
    have hsing2 : ∀ a ∈ A.terms.filter (fun t => !commutesRow A.n_qubits t.1 Q.1),
        rotStepSpec im A.n_qubits Q.1 (some cs) a =
          [(a.1, a.2 * cs.1),
            (rowXor a.1 Q.1, pauliPhase im A.n_qubits a.1 Q.1 * a.2 * 1 * (-im * cs.2))] := by
      intro a ha
      rw [List.mem_filter] at ha
      have hcm : ¬ commutesRow A.n_qubits a.1 Q.1 = true := by simpa using ha.2
      unfold rotStepSpec
      rw [if_neg hcm]
      simp only [List.cons.injEq, Prod.mk.injEq]
      and_intros <;> first | rfl | ring
    have hpair := flatMap_pair_perm
      (fun a : Row × R => (a.1, a.2 * cs.1))
      (fun a : Row × R =>
        (rowXor a.1 Q.1, pauliPhase im A.n_qubits a.1 Q.1 * a.2 * 1 * (-im * cs.2)))
      (A.terms.filter (fun t => !commutesRow A.n_qubits t.1 Q.1))
    have hperm := flatMap_perm_filter (fun t => commutesRow A.n_qubits t.1 Q.1)
      (rotStepSpec im A.n_qubits Q.1 (some cs)) A.terms
    rw [flatMap_eq_map_of_singleton hsing1, List.map_id',
      flatMap_congr_mem hsing2] at hperm
    have hperm2 := hperm.trans (hpair.append_left _)
    rw [cleanupTerms_perm hwfstep hperm2]
    simp only [rotateBySinglePword, addUnchecked, PauliwordOp.scale, multiplySinglePword,
      List.map_map]
    rw [cleanupTerms_append_cleanup]
    rfl

/-- `__mul__` by a single-term operator performs exactly one
`_multiply_single_Pword` with no cleanup (`reduce` over one element). -/
theorem pauliMul_single {R : Type} [CommRing R] (im : R) (n : ℕ) (a b : Row × R) :
    pauliMul im ⟨n, [a]⟩ ⟨n, [b]⟩ = some ⟨n, [mulRow im n a b]⟩ := by
  unfold pauliMul multiplySinglePword
  simp

theorem mulRow_X_Y : mulRow Complex.I 1 ([true, false], (1:ℂ)) ([true, true], 1) =
    ([false, true], Complex.I) := by
  unfold mulRow pauliPhase
  have h1 : countAnd (xBlock 1 [true, false]) (zBlock 1 [true, true]) = 1 := rfl
  have h2 : yCount 1 [true, false] = 0 := rfl
  have h3 : yCount 1 [true, true] = 1 := rfl
  have h4 : yCount 1 (rowXor [true, false] [true, true]) = 0 := rfl
  have h5 : rowXor [true, false] [true, true] = [false, true] := rfl
  rw [h1, h2, h3, h4, h5, Prod.mk.injEq]
  exact ⟨rfl, by ring⟩

theorem mulRow_Y_X : mulRow Complex.I 1 ([true, true], (1:ℂ)) ([true, false], 1) =
    ([false, true], -Complex.I) := by
  unfold mulRow pauliPhase
  have h1 : countAnd (xBlock 1 [true, true]) (zBlock 1 [true, false]) = 0 := rfl
  have h2 : yCount 1 [true, true] = 1 := rfl
  have h3 : yCount 1 [true, false] = 0 := rfl
  have h4 : yCount 1 (rowXor [true, true] [true, false]) = 0 := rfl
  have h5 : rowXor [true, true] [true, false] = [false, true] := rfl
  rw [h1, h2, h3, h4, h5, Prod.mk.injEq]
  exact ⟨rfl, by ring⟩

/-- Claim C1: multiplying each term `a` of `A` by a single Pauli term `b`
yields the term with bit-vector `a XOR b` and coefficient
`coeff_a * coeff_b * (-1)^popcount(X_a AND Z_b) * (-i)^(Ya+Yb) * i^(Y of a XOR b)`;
in particular `X * Y = Z` with coefficient `1j` and `Y * X = Z` with
coefficient `-1j` (through the full `__mul__`). -/
theorem C1_multiply_single_Pword (A : PauliwordOp ℂ) (b : Row × ℂ) (_hA : A.WF)
    (_hb : b.1.length = 2 * A.n_qubits) :
    (∀ i : ℕ, (multiplySinglePword Complex.I A b).terms[i]? =
      (A.terms[i]?).map (fun a => (rowXor a.1 b.1,
        a.2 * b.2 * ((-1 : ℂ) ^ countAnd (xBlock A.n_qubits a.1) (zBlock A.n_qubits b.1) *
          (-Complex.I) ^ (yCount A.n_qubits a.1 + yCount A.n_qubits b.1) *
          Complex.I ^ yCount A.n_qubits (rowXor a.1 b.1))))) ∧
    pauliMul Complex.I ⟨1, [([true, false], 1)]⟩ ⟨1, [([true, true], 1)]⟩ =
      some ⟨1, [([false, true], Complex.I)]⟩ ∧
    pauliMul Complex.I ⟨1, [([true, true], 1)]⟩ ⟨1, [([true, false], 1)]⟩ =
      some ⟨1, [([false, true], -Complex.I)]⟩ := by
  refine ⟨?_, ?_, ?_⟩
  · intro i
    simp only [multiplySinglePword, List.getElem?_map]
    cases h : A.terms[i]? with
    | none => rfl
    | some a =>
      simp only [Option.map_some']
      rw [Option.some.injEq]
      unfold mulRow
      rw [Prod.mk.injEq]
      exact ⟨rfl, by unfold pauliPhase; ring⟩
  · rw [pauliMul_single, mulRow_X_Y]
  · rw [pauliMul_single, mulRow_Y_X]

/-- Witness for C1: the hypotheses hold at the one-qubit `X` operator and
the single term `Y`, and the claim follows there. -/
theorem C1_multiply_single_Pword_witness :
    (⟨1, [([true, false], (1:ℂ))]⟩ : PauliwordOp ℂ).WF ∧
    ([true, true] : Row).length = 2 * 1 ∧
    pauliMul Complex.I ⟨1, [([true, false], 1)]⟩ ⟨1, [([true, true], 1)]⟩ =
      some ⟨1, [([false, true], Complex.I)]⟩ :=
  ⟨by decide, by decide,
    (C1_multiply_single_Pword ⟨1, [([true, false], 1)]⟩ ([true, true], 1)
      (by decide) (by decide)).2.1⟩

/-- Witness for C2: the hypotheses hold at the one-qubit single-`X`
operator rotated by `Y` with the angle omitted (Clifford case), over the
exact complex rationals. -/
theorem C2_rotation_refines_spec_witness :
    (⟨1, [([true, false], (1:CQ))]⟩ : PauliwordOp CQ).WF ∧
    ([true, true] : Row).length = 2 * 1 ∧ ((([true, true] : Row), (1:CQ)).2 = 1) ∧
    (rotateBySinglePword CQ.imUnit ⟨1, [([true, false], 1)]⟩ ([true, true], 1) none).terms =
      cleanupTerms (((⟨1, [([true, false], (1:CQ))]⟩ : PauliwordOp CQ)).terms.flatMap
        (rotStepSpec CQ.imUnit 1 [true, true] none)) :=
  ⟨by decide, by decide, rfl,
    C2_rotation_refines_spec CQ.imUnit ⟨1, [([true, false], 1)]⟩ ([true, true], 1) none
      (by decide) (by decide) rfl⟩

/-! ## Lemmas: bubble sort -/

theorem passFull_perm : ∀ l : List ℕ, List.Perm (passFull l).1 l
  | [] => by simp [passFull]
  | [a] => by simp [passFull]
  | a :: b :: rest => by
    by_cases h : b < a
    · simp only [passFull, h, if_pos]
      exact ((passFull_perm (a :: rest)).cons b).trans (List.Perm.swap a b rest)
    · simp only [passFull, h, Bool.false_eq_true, if_neg, not_false_iff]
      exact (passFull_perm (b :: rest)).cons a
termination_by l => l.length
decreasing_by all_goals simp [List.length_cons]

/-- A full pass bubbles a maximum of the input to the last position. -/
theorem passFull_last : ∀ l : List ℕ, l ≠ [] →
    ∃ l₀ m, (passFull l).1 = l₀ ++ [m] ∧ ∀ x ∈ l, x ≤ m
  | [], h => absurd rfl h
  | [a], _ => ⟨[], a, by simp [passFull], by simp⟩
  | a :: b :: rest, _ => by
    by_cases h : b < a
    · obtain ⟨l₀, m, hl, hm⟩ := passFull_last (a :: rest) (by simp)
      refine ⟨b :: l₀, m, ?_, ?_⟩
      · simp [passFull, h, hl]
      · intro x hx
        rcases List.mem_cons.1 hx with rfl | hx2
        · exact hm x (by simp)
        · rcases List.mem_cons.1 hx2 with rfl | hx3
          · exact le_of_lt (lt_of_lt_of_le h (hm a (by simp)))
          · exact hm x (List.mem_cons_of_mem _ hx3)
    · obtain ⟨l₀, m, hl, hm⟩ := passFull_last (b :: rest) (by simp)
      refine ⟨a :: l₀, m, ?_, ?_⟩
      · simp [passFull, h, hl]
      · intro x hx
        rcases List.mem_cons.1 hx with rfl | hx2
        · exact le_trans (le_of_not_lt h) (hm b (by simp))
        · exact hm x hx2
termination_by l => l.length
decreasing_by all_goals simp [List.length_cons]

/-- A pass with no swaps leaves the list unchanged, and the input was
sorted. -/
theorem passFull_count_zero : ∀ l : List ℕ, (passFull l).2 = 0 →
    (passFull l).1 = l ∧ List.Sorted (· ≤ ·) l
  | [] => by simp [passFull]
  | [a] => by simp [passFull]
  | a :: b :: rest => by
    intro hz
    by_cases h : b < a
    · simp only [passFull, h, if_pos] at hz
      omega
    · simp only [passFull, h, Bool.false_eq_true, if_neg, not_false_iff] at hz ⊢
      obtain ⟨h1, h2⟩ := passFull_count_zero (b :: rest) hz
      refine ⟨by rw [h1], ?_⟩
      rw [List.sorted_cons]
      refine ⟨?_, h2⟩
      intro x hx
      rcases List.mem_cons.1 hx with rfl | hx2
      · exact le_of_not_lt h
      · exact le_trans (le_of_not_lt h) ((List.sorted_cons.1 h2).1 x hx2)
termination_by l => l.length
decreasing_by all_goals simp [List.length_cons]

/-- A pass over a sorted list makes no swaps. -/
theorem passFull_sorted : ∀ l : List ℕ, List.Sorted (· ≤ ·) l → passFull l = (l, 0)
  | [] => by simp [passFull]
  | [a] => by simp [passFull]
  | a :: b :: rest => by
    intro hs
    have hab : a ≤ b := (List.sorted_cons.1 hs).1 b (by simp)
    have htl : List.Sorted (· ≤ ·) (b :: rest) := (List.sorted_cons.1 hs).2
    have h : ¬ b < a := not_lt_of_le hab
    simp only [passFull, h, Bool.false_eq_true, if_neg, not_false_iff,
      passFull_sorted (b :: rest) htl]
termination_by l => l.length
decreasing_by all_goals simp [List.length_cons]

/-- The bounded inner pass is the full pass on the first `k + 1` entries,
leaving the rest untouched. -/
theorem bubbleInner_decomp : ∀ (k : ℕ) (l : List ℕ),
    bubbleInner k l = ((passFull (l.take (k+1))).1 ++ l.drop (k+1), (passFull (l.take (k+1))).2)
  | 0, l => by
    cases l with
    | nil => simp [bubbleInner, passFull]
    | cons a t => simp [bubbleInner, passFull]
  | k + 1, [] => by simp [bubbleInner, passFull]
  | k + 1, [a] => by simp [bubbleInner, passFull]
  | k + 1, a :: b :: rest => by
    have ih1 := bubbleInner_decomp k (a :: rest)
    have ih2 := bubbleInner_decomp k (b :: rest)
    by_cases h : b < a
    · simp only [bubbleInner, h, if_pos, ih1, List.take_succ_cons, List.drop_succ_cons,
        passFull, List.cons_append]
    · simp only [bubbleInner, h, Bool.false_eq_true, if_neg, not_false_iff, ih2,
        List.take_succ_cons, List.drop_succ_cons, passFull, List.cons_append]

/-- Main invariant of the outer loop: if the suffix beyond position `r`
is sorted and dominates the prefix, the loop returns a sorted permutation
of its input. -/
theorem bubbleOuter_sorted : ∀ (r : ℕ) (l : List ℕ),
    List.Sorted (· ≤ ·) (l.drop r) →
    (∀ x ∈ l.take r, ∀ y ∈ l.drop r, x ≤ y) →
    List.Sorted (· ≤ ·) (bubbleOuter r l).1 ∧ List.Perm (bubbleOuter r l).1 l := by
  intro r
  induction r with
  | zero =>
    intro l hs _
    exact ⟨by simpa using hs, List.Perm.refl l⟩
  | succ r ih =>
    intro l hs hcross
    rw [bubbleOuter, bubbleInner_decomp r l]
    by_cases hz : (passFull (l.take (r+1))).2 = 0
    · obtain ⟨hfix, hsorted⟩ := passFull_count_zero _ hz
      simp only [hz, if_pos, hfix]
      rw [List.take_append_drop]
      constructor
      · rw [← List.take_append_drop (r+1) l]
        exact (List.pairwise_append).2 ⟨hsorted, hs, hcross⟩
      · exact List.Perm.refl l
    · simp only [hz, Bool.false_eq_true, if_neg, not_false_iff]
      have htne : l.take (r+1) ≠ [] := by
        intro hemp
        rw [hemp] at hz
        simp [passFull] at hz
      obtain ⟨l₀, m, hpf, hm⟩ := passFull_last _ htne
      have hpfperm : List.Perm (passFull (l.take (r+1))).1 (l.take (r+1)) := passFull_perm _
      have hpflen : (passFull (l.take (r+1))).1.length = (l.take (r+1)).length :=
        hpfperm.length_eq
      have hnewperm :
          List.Perm ((passFull (l.take (r+1))).1 ++ l.drop (r+1)) l := by
        refine (hpfperm.append_right _).trans ?_
        rw [List.take_append_drop]
      have hmem_t : ∀ x ∈ (passFull (l.take (r+1))).1, x ≤ m := fun x hx =>
        hm x (hpfperm.mem_iff.1 hx)
      have hm_t : m ∈ l.take (r+1) :=
        hpfperm.mem_iff.1 (by rw [hpf]; simp)
      rcases le_or_lt (r+1) l.length with hge | hlt
      · have hlt0 : l₀.length = r := by
          have h1 : (l.take (r+1)).length = r + 1 := by
            rw [List.length_take]
            omega
          rw [hpf] at hpflen
          simp only [List.length_append, List.length_cons, List.length_nil] at hpflen
          omega
        have hdropnew : ((passFull (l.take (r+1))).1 ++ l.drop (r+1)).drop r =
            m :: l.drop (r+1) := by
          rw [hpf, List.append_assoc, List.singleton_append, List.drop_left' hlt0]
        have htakenew : ((passFull (l.take (r+1))).1 ++ l.drop (r+1)).take r = l₀ := by
          rw [hpf, List.append_assoc, List.singleton_append, List.take_left' hlt0]
        have hsorted2 :
            List.Sorted (· ≤ ·) (((passFull (l.take (r+1))).1 ++ l.drop (r+1)).drop r) := by
          rw [hdropnew, List.sorted_cons]
          exact ⟨fun y hy => hcross m hm_t y hy, hs⟩
        have hcross2 : ∀ x ∈ ((passFull (l.take (r+1))).1 ++ l.drop (r+1)).take r,
            ∀ y ∈ ((passFull (l.take (r+1))).1 ++ l.drop (r+1)).drop r, x ≤ y := by
          rw [htakenew, hdropnew]
          intro x hx y hy
          have hxpf : x ∈ (passFull (l.take (r+1))).1 := by
            rw [hpf]
            exact List.mem_append.2 (Or.inl hx)
          rcases List.mem_cons.1 hy with rfl | hy2
          · exact hmem_t x hxpf
          · exact hcross x (hpfperm.mem_iff.1 hxpf) y hy2
        obtain ⟨hS, hP⟩ := ih _ hsorted2 hcross2
        exact ⟨hS, hP.trans hnewperm⟩
      · have hdrop : l.drop (r+1) = [] := List.drop_eq_nil_of_le (by omega)
        have hlen2 : (passFull (l.take (r+1))).1.length ≤ r := by
          rw [hpflen, List.length_take]
          omega
        have hsorted2 :
            List.Sorted (· ≤ ·) (((passFull (l.take (r+1))).1 ++ l.drop (r+1)).drop r) := by
          rw [hdrop, List.append_nil, List.drop_eq_nil_of_le hlen2]
          exact List.sorted_nil
        have hcross2 : ∀ x ∈ ((passFull (l.take (r+1))).1 ++ l.drop (r+1)).take r,
            ∀ y ∈ ((passFull (l.take (r+1))).1 ++ l.drop (r+1)).drop r, x ≤ y := by
          intro x _ y hy
          rw [hdrop, List.append_nil, List.drop_eq_nil_of_le hlen2] at hy
          cases hy
        obtain ⟨hS, hP⟩ := ih _ hsorted2 hcross2
        exact ⟨hS, hP.trans hnewperm⟩

/-- Claim C3: `bubble_sort_maj` returns its input sorted ascending, with
sign `+1` when the number of adjacent swaps it performed is even and `-1`
when odd ( `(-1)^swaps` ); an already-sorted input yields `+1` (the loop
breaks after a swap-free first pass), and `canonical_order([2,0,1])`
returns `([0,1,2], +1)` (two adjacent swaps). -/
theorem C3_bubble_sort_maj (l : List ℕ) :
    List.Sorted (· ≤ ·) (bubble_sort_maj l).1 ∧
    List.Perm (bubble_sort_maj l).1 l ∧
    (bubble_sort_maj l).2 = (-1 : ℤ) ^ (bubbleOuter l.length l).2 ∧
    (List.Sorted (· ≤ ·) l → (bubble_sort_maj l).2 = 1) ∧
    bubble_sort_maj [2, 0, 1] = ([0, 1, 2], 1) := by
  have hmain := bubbleOuter_sorted l.length l
    (by rw [List.drop_length]; exact List.sorted_nil)
    (by intro x _ y hy; rw [List.drop_length] at hy; cases hy)
  refine ⟨hmain.1, hmain.2, ?_, ?_, by decide⟩
  · simp only [bubble_sort_maj]
    rcases Nat.even_or_odd ((bubbleOuter l.length l).2) with he | ho
    · rw [if_pos (Nat.even_iff.1 he), he.neg_one_pow]
    · rw [if_neg (by rw [Nat.odd_iff.1 ho]; omega), ho.neg_one_pow]
  · intro hsor
    simp only [bubble_sort_maj]
    rcases hlen : l.length with _ | r
    · simp [bubbleOuter]
    · have hts : List.Sorted (· ≤ ·) (l.take (r+1)) :=
        List.Pairwise.sublist (List.take_sublist (r+1) l) hsor
      simp only [bubbleOuter, bubbleInner_decomp, passFull_sorted _ hts]
      simp

/-- Witness for C3: the theorem instantiated at `[2,0,1]` and, for the
inner implication, at the sorted list `[0,1,2]`. -/
theorem C3_bubble_sort_maj_witness :
    bubble_sort_maj [2, 0, 1] = ([0, 1, 2], 1) ∧ (bubble_sort_maj [0, 1, 2]).2 = 1 :=
  ⟨(C3_bubble_sort_maj [2, 0, 1]).2.2.2.2,
    (C3_bubble_sort_maj [0, 1, 2]).2.2.2.1 (by decide)⟩

/-- Counterexample for C4: for `A = B = γ₀` (one Majorana mode on two
sites), `commutes_termwise` entry `(0,0)` is the integer 1 (truthy): here
`sa = sb = 1` and `o = 1`, so `(sa*sb + o + 1) mod 2 = 1 ≠ 0` — the entry
is true although the claimed condition `(sa*sb + o + 1) mod 2 == 0`
fails, so the claim's iff is inverted. -/
theorem C4_commutes_termwise_counterexample :
    majCommutesTermwise ⟨2, [([true, false], 1)]⟩ ⟨2, [([true, false], 1)]⟩ = [[1]] ∧
    ¬ (rowWeight [true, false] * rowWeight [true, false] +
        countAnd (([true, false] : Row).take 2) (([true, false] : Row).take 2) + 1) % 2 = 0 := by
  constructor <;> decide

/-- Claim C4 (amended): entry `(i,j)` of `commutes_termwise(A,B)` is the
integer `(sa*sb + o + 1) mod 2`, which is 1 (true) if and only if
`sa*sb + o` is even — i.e. exactly when the condition stated in the claim,
`(sa*sb + o + 1) mod 2 == 0`, is false. -/
theorem C4_commutes_termwise_amended (A B : MajoranaOp) (i j : ℕ) (a b : Row × CQ)
    (ha : A.terms[i]? = some a) (hb : B.terms[j]? = some b) :
    ((majCommutesTermwise A B)[i]?.bind (fun row => row[j]?)) =
      some ((rowWeight a.1 * rowWeight b.1 +
        countAnd (a.1.take (min A.n_sites B.n_sites))
          (b.1.take (min A.n_sites B.n_sites)) + 1) % 2) ∧
    (((majCommutesTermwise A B)[i]?.bind (fun row => row[j]?)) = some 1 ↔
      (rowWeight a.1 * rowWeight b.1 +
        countAnd (a.1.take (min A.n_sites B.n_sites))
          (b.1.take (min A.n_sites B.n_sites))) % 2 = 0) := by
  have hsites : (if A.n_sites ≠ B.n_sites then min A.n_sites B.n_sites else A.n_sites) =
      min A.n_sites B.n_sites := by
    by_cases h : A.n_sites = B.n_sites
    · simp [h]
    · simp [h]
  have h1 : ((majCommutesTermwise A B)[i]?.bind (fun row => row[j]?)) =
      some ((rowWeight a.1 * rowWeight b.1 +
        countAnd (a.1.take (min A.n_sites B.n_sites))
          (b.1.take (min A.n_sites B.n_sites)) + 1) % 2) := by
    simp only [majCommutesTermwise, hsites, List.getElem?_map, ha, hb, Option.map_some',
      Option.some_bind]
  refine ⟨h1, ?_⟩
  rw [h1, Option.some.injEq]
  omega

/-- Witness for C4 (amended) at `A = B = γ₀`. -/
theorem C4_commutes_termwise_amended_witness :
    (⟨2, [([true, false], 1)]⟩ : MajoranaOp).terms[0]? = some ([true, false], 1) ∧
    ((majCommutesTermwise ⟨2, [([true, false], 1)]⟩ ⟨2, [([true, false], 1)]⟩)[0]?.bind
      (fun row => row[0]?)) =
      some ((rowWeight [true, false] * rowWeight [true, false] +
        countAnd (([true, false] : Row).take (min 2 2))
          (([true, false] : Row).take (min 2 2)) + 1) % 2) :=
  ⟨rfl, (C4_commutes_termwise_amended ⟨2, [([true, false], 1)]⟩ ⟨2, [([true, false], 1)]⟩
    0 0 ([true, false], 1) ([true, false], 1) rfl rfl).1⟩

/-- Counterexample for C5: `update_sector` with stabilizer `ZI` (symplectic
row `[0,0,1,0]`) and reference state `[1,0]` sets the coefficient to `-1`,
not `+1` as the claim states (the code computes
`(-1)^popcount(Z_block AND ref)` = `(-1)^1`). -/
theorem C5_update_sector_counterexample :
    update_sector (⟨2, [([false, false, true, false], 1)]⟩ : PauliwordOp ℤ) [true, false] =
      [-1] ∧
    ¬ update_sector (⟨2, [([false, false, true, false], 1)]⟩ : PauliwordOp ℤ) [true, false] =
      [1] := by
  constructor <;> decide

/-- Claim C5 (amended): over n = 2 qubits, `update_sector` with reference
state `[1,0]` and stabilizer `ZI` sets the coefficient to `-1`; with
stabilizer `ZZ` and reference `[1,1]` it is `+1`, and with reference
`[1,0]` it is `-1`. -/
theorem C5_update_sector_amended :
    update_sector (⟨2, [([false, false, true, false], 1)]⟩ : PauliwordOp ℤ) [true, false] =
      [-1] ∧
    update_sector (⟨2, [([false, false, true, true], 1)]⟩ : PauliwordOp ℤ) [true, true] =
      [1] ∧
    update_sector (⟨2, [([false, false, true, true], 1)]⟩ : PauliwordOp ℤ) [true, false] =
      [-1] := by
  refine ⟨?_, ?_, ?_⟩ <;> decide

/-- Padding the rows of an operator to their own width changes nothing. -/
theorem padMap_eq_self {A : MajoranaOp} (h : A.WF) :
    A.terms.map (fun t => (padRow A.n_sites t.1, t.2)) = A.terms := by
  conv_rhs => rw [← List.map_id A.terms]
  apply List.map_congr_left
  intro t ht
  simp [padRow, h t ht]

/-- Padding an operator to its own width is the identity. -/
theorem padTo_eq_self {A : MajoranaOp} (h : A.WF) : A.padTo A.n_sites = A := by
  have hmap := padMap_eq_self h
  cases A with
  | mk n terms =>
    simp only [MajoranaOp.padTo, MajoranaOp.mk.injEq, true_and]
    exact hmap

/-- Counterexample for C6: Pauli `__add__` on operators over different
qubit counts fails (asserts) instead of padding, while Majorana `__mul__`
on operators over different site counts pads and succeeds — the claim has
the two behaviours backwards. -/
theorem C6_dimension_mismatch_counterexample :
    pauliAdd (⟨1, [([true, false], (1:CQ))]⟩ : PauliwordOp CQ)
      ⟨2, [([true, true, false, false], 1)]⟩ = none ∧
    majMul ⟨2, [([true, false], 1)]⟩ ⟨4, [([false, false, false, true], 1)]⟩ =
      ⟨4, [([true, false, false, true], 1)]⟩ := by
  constructor <;> decide

/-- Claim C6 (amended): the Pauli operations `__add__`, `__mul__` and
`commutes_termwise` all assert equal qubit counts and fail on a mismatch;
the Majorana `__add__` and `__mul__` pad the smaller operator's bit-matrix
with trailing zero columns and succeed (equalling the equal-width
operation applied to the padded operands), and the Majorana
`commutes_termwise` also succeeds, returning a full `|A| × |B|` matrix. -/
theorem C6_dimension_mismatch_amended :
    (∀ (R : Type) [CommRing R] (im : R) (A B : PauliwordOp R),
      A.n_qubits ≠ B.n_qubits →
        pauliAdd A B = none ∧ pauliMul im A B = none ∧
        pauliCommutesTermwise A B = none) ∧
    (∀ MA MB : MajoranaOp, MA.WF → MB.WF →
      majAdd MA MB = majAddEqual (MA.padTo (max MA.n_sites MB.n_sites))
          (MB.padTo (max MA.n_sites MB.n_sites)) ∧
      majMul MA MB = majMulEqual (MA.padTo (max MA.n_sites MB.n_sites))
          (MB.padTo (max MA.n_sites MB.n_sites)) ∧
      (majCommutesTermwise MA MB).length = MA.terms.length) := by
  constructor
  · intro R _ im A B hne
    refine ⟨?_, ?_, ?_⟩
    · simp [pauliAdd, hne]
    · simp [pauliMul, hne]
    · simp [pauliCommutesTermwise, hne]
  · intro MA MB hwfA hwfB
    rcases lt_trichotomy MA.n_sites MB.n_sites with hlt | heq | hgt
    · have hmax : max MA.n_sites MB.n_sites = MB.n_sites := Nat.max_eq_right (le_of_lt hlt)
      refine ⟨?_, ?_, by simp [majCommutesTermwise]⟩
      · rw [majAdd, if_pos hlt]
        simp only [majAddEqual, hmax, MajoranaOp.padTo]
        rw [padMap_eq_self hwfB]
      · rw [majMul, if_pos hlt]
        simp only [majMulEqual, hmax, MajoranaOp.padTo]
        rw [padMap_eq_self hwfB]
    · have hmax : max MA.n_sites MB.n_sites = MA.n_sites := by rw [heq]; exact Nat.max_self _
      have hA : MA.padTo (max MA.n_sites MB.n_sites) = MA := by
        rw [hmax]; exact padTo_eq_self hwfA
      have hB : MB.padTo (max MA.n_sites MB.n_sites) = MB := by
        rw [hmax, heq]; exact padTo_eq_self hwfB
      refine ⟨?_, ?_, by simp [majCommutesTermwise]⟩
      · rw [majAdd, if_neg (by omega), if_neg (by omega), hA, hB]
        rfl
      · rw [majMul, if_neg (by omega), if_neg (by omega), hA, hB]
        rfl
    · have hmax : max MA.n_sites MB.n_sites = MA.n_sites := Nat.max_eq_left (le_of_lt hgt)
      refine ⟨?_, ?_, by simp [majCommutesTermwise]⟩
      · rw [majAdd, if_neg (by omega), if_pos hgt]
        simp only [majAddEqual, hmax, MajoranaOp.padTo]
        rw [padMap_eq_self hwfA]
      · rw [majMul, if_neg (by omega), if_pos hgt]
        simp only [majMulEqual, hmax, MajoranaOp.padTo]
        rw [padMap_eq_self hwfA]

/-- Witness for C6 (amended): the Pauli half at a 1-qubit vs 2-qubit pair,
the Majorana half at a 2-site vs 4-site pair. -/
theorem C6_dimension_mismatch_amended_witness :
    pauliAdd (⟨1, [([true, false], (1:CQ))]⟩ : PauliwordOp CQ)
      ⟨2, [([true, true, false, false], 1)]⟩ = none ∧
    majAdd ⟨2, [([true, false], 1)]⟩ ⟨4, [([false, false, false, true], 1)]⟩ =
      majAddEqual ((⟨2, [([true, false], 1)]⟩ : MajoranaOp).padTo 4)
        ((⟨4, [([false, false, false, true], 1)]⟩ : MajoranaOp).padTo 4) :=
  ⟨(C6_dimension_mismatch_amended.1 CQ CQ.imUnit ⟨1, [([true, false], 1)]⟩
      ⟨2, [([true, true, false, false], 1)]⟩ (by decide)).1,
    (C6_dimension_mismatch_amended.2 ⟨2, [([true, false], 1)]⟩
      ⟨4, [([false, false, false, true], 1)]⟩ (by decide) (by decide)).1⟩

/-- Counterexample for C7: merging two copies of `γ₀γ₁` with coefficients
`1` and `-1` produces an exact-zero coefficient; the Pauli-style merge
(`cleanupTerms`) retains the zero row, but `MajoranaOp.cleanup` applies
its built-in `1e-15` threshold and discards it — so "cleanup retains rows
whose summed coefficient is zero" is false for Majorana operators, whose
`cleanup` already includes the thresholding the claim attributes only to
`cleanup_zeros`. -/
theorem C7_cleanup_counterexample :
    cleanupTerms [([true, true], (1 : CQ)), ([true, true], -1)] = [([true, true], 0)] ∧
    (MajoranaOp.cleanup ⟨2, [([true, true], 1), ([true, true], -1)]⟩).terms = [] := by
  constructor <;> decide

/-- Claim C7 (amended): the Pauli `cleanup` merges rows with identical
bit-vectors by summing their coefficients exactly and retains rows whose
summed coefficient is zero; the separate Pauli `cleanup_zeros` applies
the `1e-15` magnitude threshold after cleaning.  The Majorana `cleanup`,
however, has the threshold built in: it equals the Pauli-style merge
followed by the threshold filter. -/
theorem C7_cleanup_amended {R : Type} [CommRing R] (n : ℕ) (l : List (Row × R))
    (hwf : ∀ t ∈ l, t.1.length = n) :
    (∀ e ∈ cleanupTerms l,
      e.2 = ((l.filter (fun s => s.1 == e.1)).map (fun s => s.2)).sum ∧ ∃ s ∈ l, s.1 = e.1) ∧
    (∀ s ∈ l, ∃ e ∈ cleanupTerms l, e.1 = s.1) ∧
    (∀ lM : List (Row × CQ),
      majCleanupTerms lM = (cleanupTerms lM).filter (fun t => aboveThreshold t.2)) ∧
    (∀ A : PauliwordOp CQ, (cleanup_zeros A).terms =
      (A.cleanup.terms).filter (fun t => aboveThreshold t.2)) := by
  refine ⟨?_, ?_, fun lM => rfl, fun A => rfl⟩
  · intro e he
    obtain ⟨t, ht, hkey, hrow, hcoeff⟩ := cleanupTerms_mem he
    refine ⟨?_, t, ht, hrow.symm⟩
    rw [hcoeff]
    unfold groupCoeff
    have hfil : l.filter (fun s => rowKey s.1 == rowKey e.1) =
        l.filter (fun s => s.1 == e.1) := by
      apply List.filter_congr
      intro s hs
      by_cases h : s.1 = e.1
      · simp [h]
      · have hkne : rowKey s.1 ≠ rowKey e.1 := by
          intro hcon
          apply h
          apply rowKey_inj _ hcon
          rw [hwf s hs, hrow, hwf t ht]
        simp only [beq_eq_false_iff_ne.2 hkne, beq_eq_false_iff_ne.2 h]
    rw [hfil]
  · intro s hs
    exact cleanupTerms_covers n hwf hs

/-- Witness for C7 (amended) on a concrete two-row list whose rows merge
to an exact zero. -/
theorem C7_cleanup_amended_witness :
    (∀ t ∈ [([true, true], (1 : CQ)), ([true, true], -1)], t.1.length = 2) ∧
    ∀ s ∈ [([true, true], (1 : CQ)), ([true, true], -1)],
      ∃ e ∈ cleanupTerms [([true, true], (1 : CQ)), ([true, true], -1)], e.1 = s.1 :=
  ⟨by decide,
    (C7_cleanup_amended 2 [([true, true], (1 : CQ)), ([true, true], -1)] (by decide)).2.1⟩

/-! ## Lemmas: bitwise counting for the pivot-consumption argument -/

theorem countAnd_cons (x y : Bool) (a b : Row) :
    countAnd (x :: a) (y :: b) = (x && y).toNat + countAnd a b := by
  unfold countAnd rowWeight
  rw [List.zipWith_cons_cons, List.count_cons]
  cases x <;> cases y <;> simp [Nat.add_comm]

theorem countAnd_append {a b : Row} (c d : Row) (h : a.length = b.length) :
    countAnd (a ++ c) (b ++ d) = countAnd a b + countAnd c d := by
  unfold countAnd rowWeight
  rw [List.zipWith_append _ _ _ _ _ h, List.count_append]

theorem countAnd_comm (a b : Row) : countAnd a b = countAnd b a := by
  unfold countAnd
  rw [List.zipWith_comm_of_comm and Bool.and_comm]

theorem rowXor_cons (x y : Bool) (a b : Row) :
    rowXor (x :: a) (y :: b) = xor x y :: rowXor a b := rfl

theorem rowXor_append {a b : Row} (c d : Row) (h : a.length = b.length) :
    rowXor (a ++ c) (b ++ d) = rowXor a b ++ rowXor c d := by
  unfold rowXor
  rw [List.zipWith_append _ _ _ _ _ h]

theorem rowXor_self (a : Row) : rowXor a a = List.replicate a.length false := by
  induction a with
  | nil => rfl
  | cons x a ih =>
    show xor x x :: rowXor a a = List.replicate (a.length + 1) false
    rw [List.replicate_succ, Bool.xor_self, ih]

theorem rowWeight_append (a b : Row) : rowWeight (a ++ b) = rowWeight a + rowWeight b :=
  List.count_append true a b

theorem rowWeight_cons (x : Bool) (a : Row) : rowWeight (x :: a) = x.toNat + rowWeight a := by
  unfold rowWeight
  rw [List.count_cons]
  cases x <;> simp [Nat.add_comm]

theorem rowWeight_replicate_false (k : ℕ) : rowWeight (List.replicate k false) = 0 := by
  simp [rowWeight, List.count_replicate]

theorem set_append_cons {α : Type} (u : List α) (a b : α) (rest : List α) :
    (u ++ a :: rest).set u.length b = u ++ b :: rest := by
  induction u with
  | nil => rfl
  | cons x u ih => simp only [List.cons_append, List.length_cons, List.set_cons_succ, ih]

/-- `update_sets` applied to the pivot row written with its X bit `xb` and
Z bit `zb` at the pivot qubit `pX = u.length` made explicit: both bits are
set to 1. -/
theorem updateSetsVec_explicit (n : ℕ) (u v p q : List Bool) (xb zb : Bool)
    (hn : n = u.length + 1 + v.length) (hp : p.length = u.length) :
    updateSetsVec n (u ++ xb :: (v ++ (p ++ zb :: q))) u.length =
      u ++ true :: (v ++ (p ++ true :: q)) := by
  unfold updateSetsVec
  rw [set_append_cons u xb true (v ++ (p ++ zb :: q))]
  have hassoc : u ++ true :: (v ++ (p ++ zb :: q)) = (u ++ true :: (v ++ p)) ++ zb :: q := by
    simp [List.append_assoc]
  have hassoc2 : u ++ true :: (v ++ (p ++ true :: q)) = (u ++ true :: (v ++ p)) ++ true :: q := by
    simp [List.append_assoc]
  have hlen : u.length + n = (u ++ true :: (v ++ p)).length := by
    simp only [List.length_append, List.length_cons]
    omega
  rw [hassoc, hlen, set_append_cons (u ++ true :: (v ++ p)) zb true q]
  exact hassoc2.symm

/-- Counterexample for C8: neither recursion's step always shrinks the
working basis.  (i) Pauli: one step of the `stabilizer_rotations`
recursion on the single-row basis `{Y}` (one qubit) returns the working
basis unchanged — `update_sets` turns the pure-Y pivot row into itself,
which commutes, so the row survives the weight-1 filter.  (ii) Majorana:
the two-term basis `{γ₂γ₃, γ₀γ₁γ₂}` (unit coefficients; the constructor
attaches the Hermitian phases `i`) has `get_rotations` first extract the
single-Z row `γ₂γ₃`, marking modes 2 and 3 used; the call of
`_recursively_rotate` on the remaining `{γ₀γ₁γ₂}` then pivots on mode 0
(the only unused support modes are 0 and 1), finds a full Z pair, and
both constructed rotations — `cos(π/4) + i·sin(π/4)·γ₀` and
`cos(π/4) + i·sin(π/4)·γ₂` — commute with the single basis row, so the
step hands the recursive call the SAME one-row working basis
`[1,1,1,0]` (coefficient `16i/2⁴ = i`) with the SAME used set: the
pivot is not consumed, `W` does not shrink, and the recursion as
written makes no further progress on this valid input. -/
theorem C8_step_not_shrinking_counterexample :
    (stepBasis CQ.imUnit [] ⟨1, [([true, true], 1)]⟩ =
      some (some ⟨1, [([true, true], 1)]⟩, [0, 1], [true, true])) ∧
    (majFromModes [[2, 3], [0, 1, 2]] [1, 1] false =
      some ⟨4, [([false, false, true, true], CS.iUnit),
        ([true, true, true, false], CS.iUnit)]⟩) ∧
    (deleteReducedRows (majCleanupTermsS [([false, false, true, true], CS.iUnit),
        ([true, true, true, false], CS.iUnit)]) 4 =
      ([2, 3], [([false, false, true, true], CS.iUnit)],
        [([true, true, true, false], CS.iUnit)])) ∧
    (majRecStep [2, 3] ⟨4, [([true, true, true, false], CS.iUnit)]⟩ =
      some (.stepped [2, 3] []
        [⟨2, [([false, false], CS.cosPi4), ([true, false], CS.iUnit * CS.sinPi4)]⟩,
         ⟨4, [([false, false, false, false], CS.cosPi4),
           ([false, false, true, false], CS.iUnit * CS.sinPi4)]⟩]
        ⟨4, [([true, true, true, false], ⟨0, 0, 16, 0, 4⟩)]⟩
        ⟨4, [([true, true, true, false], ⟨0, 0, 16, 0, 4⟩)]⟩)) := by
  refine ⟨by decide, by decide, by decide, by decide⟩

/-- Claim C8 (amended): neither recursion unconditionally consumes the
pivot, but each does away from its degenerate case.  Pauli: a recursive
step of `stabilizer_rotations` consumes the pivot row whenever that row
is X or Z (not Y, not I) at the selected pivot qubit: writing the pivot
row as `u ++ xb :: (v ++ (p ++ zb :: q))` with the pivot qubit at
position `u.length` and `xb ≠ zb`, the `update_sets` rotation generator
anticommutes with the row, the transformed row `-i·(t·Q)` has symplectic
weight exactly 1, and hence the rotated pivot is removed by the
weight-≠-1 filter that builds the next working basis.  (When the pivot
row is pure Y at the pivot qubit the generator equals the row itself and
the basis does not shrink — see the counterexample.)  Majorana: when the
second rotation anticommutes with the pivot, the conjugated pivot is the
single-Z row of the pivot pair, which the NEXT call's
`_delete_reduced_rows` extracts — one `_recursively_rotate` step on the
basis `{γ₀}` hands the recursive call the working basis `{γ₀γ₁}`
(coefficient `-4i/2² = -i`), and that call finishes, consuming the row
and marking modes 0 and 1 used.  (When both rotations commute with the
pivot nothing is consumed — see the counterexample.) -/
theorem C8_pivot_consumed_amended {R : Type} [CommRing R] (im : R) (n : ℕ)
    (u v p q : List Bool) (xb zb : Bool) (c : R)
    (hn : n = u.length + 1 + v.length) (hp : p.length = u.length)
    (hq : q.length = v.length) (hxz : xb ≠ zb) :
    (commutesRow n (u ++ xb :: (v ++ (p ++ zb :: q)))
      (updateSetsVec n (u ++ xb :: (v ++ (p ++ zb :: q))) u.length) = false ∧
    rowWeight (rowXor (u ++ xb :: (v ++ (p ++ zb :: q)))
      (updateSetsVec n (u ++ xb :: (v ++ (p ++ zb :: q))) u.length)) = 1 ∧
    ((rotateBySinglePword im ⟨n, [(u ++ xb :: (v ++ (p ++ zb :: q)), c)]⟩
        (updateSetsVec n (u ++ xb :: (v ++ (p ++ zb :: q))) u.length, 1) none).terms.filter
      (fun s => rowWeight s.1 ≠ 1)) = []) ∧
    (majRecStep [] ⟨2, [([true, false], 1)]⟩ =
      some (.stepped [] []
        [⟨2, [([false, false], CS.cosPi4), ([false, true], CS.iUnit * CS.sinPi4)]⟩]
        ⟨2, [([true, true], ⟨0, 0, -4, 0, 2⟩)]⟩
        ⟨2, [([true, true], ⟨0, 0, -4, 0, 2⟩)]⟩) ∧
    majRecStep [] ⟨2, [([true, true], ⟨0, 0, -4, 0, 2⟩)]⟩ =
      some (.finished [0, 1] [([true, true], ⟨0, 0, -4, 0, 2⟩)])) := by
  refine ⟨?_, by decide, by decide⟩
  rw [updateSetsVec_explicit n u v p q xb zb hn hp]
  have hsplit_t : u ++ xb :: (v ++ (p ++ zb :: q)) = (u ++ xb :: v) ++ (p ++ zb :: q) := by
    simp [List.append_assoc]
  have hsplit_Q : u ++ true :: (v ++ (p ++ true :: q)) = (u ++ true :: v) ++ (p ++ true :: q) := by
    simp [List.append_assoc]
  have hlen1 : (u ++ true :: v).length = n := by
    simp only [List.length_append, List.length_cons]
    omega
  have hlen1x : (u ++ xb :: v).length = n := by
    simp only [List.length_append, List.length_cons]
    omega
  have hlenpq : (u ++ xb :: v).length = (p ++ zb :: q).length := by
    simp only [List.length_append, List.length_cons]
    omega
  have hswap : swapHalves n (u ++ true :: (v ++ (p ++ true :: q))) =
      (p ++ true :: q) ++ (u ++ true :: v) := by
    unfold swapHalves zBlock xBlock
    rw [hsplit_Q, List.drop_left' hlen1, List.take_left' hlen1]
  have hcount : countAnd (u ++ xb :: (v ++ (p ++ zb :: q)))
      (swapHalves n (u ++ true :: (v ++ (p ++ true :: q)))) =
      2 * countAnd u p + 2 * countAnd v q + xb.toNat + zb.toNat := by
    rw [hswap, hsplit_t,
      countAnd_append _ _ (by simp only [List.length_append, List.length_cons]; omega),
      countAnd_append _ _ hp.symm, countAnd_append _ _ hp,
      countAnd_cons, countAnd_cons, countAnd_comm p u, countAnd_comm q v,
      Bool.and_true, Bool.and_true]
    ring
  have hxor : rowXor (u ++ xb :: (v ++ (p ++ zb :: q)))
      (u ++ true :: (v ++ (p ++ true :: q))) =
      (List.replicate u.length false ++ (!xb) :: List.replicate v.length false) ++
        (List.replicate p.length false ++ (!zb) :: List.replicate q.length false) := by
    rw [hsplit_t, hsplit_Q,
      rowXor_append _ _ (by simp only [List.length_append, List.length_cons]),
      rowXor_append _ _ rfl, rowXor_append _ _ rfl]
    simp only [rowXor_cons, rowXor_self, Bool.xor_true]
  have h1 : commutesRow n (u ++ xb :: (v ++ (p ++ zb :: q)))
      (u ++ true :: (v ++ (p ++ true :: q))) = false := by
    unfold commutesRow
    rw [hcount]
    simp only [beq_eq_false_iff_ne]
    cases xb <;> cases zb <;> simp at hxz ⊢ <;> omega
  have h2 : rowWeight (rowXor (u ++ xb :: (v ++ (p ++ zb :: q)))
      (u ++ true :: (v ++ (p ++ true :: q)))) = 1 := by
    rw [hxor, rowWeight_append, rowWeight_append, rowWeight_append,
      rowWeight_cons, rowWeight_cons, rowWeight_replicate_false,
      rowWeight_replicate_false, rowWeight_replicate_false, rowWeight_replicate_false]
    cases xb <;> cases zb <;> simp at hxz ⊢
  refine ⟨h1, h2, ?_⟩
  simp only [rotateBySinglePword, multiplySinglePword, PauliwordOp.scale, addUnchecked,
    List.filter_cons, List.filter_nil, h1, Bool.false_eq_true, if_false, Bool.not_false,
    if_pos, List.map_cons, List.map_nil, List.nil_append, mulRow]
  rw [cleanupTerms_singleton, List.filter_cons]
  simp [h2]

/-- Witness for C8 (amended): the one-qubit pivot row `X` (so `xb = true`,
`zb = false` with all four context blocks empty) anticommutes with its
`update_sets` generator `Y` and is consumed. -/
theorem C8_pivot_consumed_amended_witness :
    ((1:ℕ) = 0 + 1 + 0) ∧
    commutesRow 1 [true, false] (updateSetsVec 1 [true, false] 0) = false :=
  ⟨rfl, by
    have h := C8_pivot_consumed_amended CQ.imUnit 1 [] [] [] [] true false (1:CQ)
      rfl rfl rfl (by decide)
    simpa using h.1.1⟩

/-- Claim C9: constructing a `MajoranaOp` from an empty numpy array with a
single coefficient yields the identity operator on 2 sites — `n_sites` is
2, the symplectic matrix is the all-zero row `[[0,0]]`, and the supplied
coefficient is unchanged, the weight-0 Hermitian phase factor being
`i^⌊0/2⌋ = 1` (whether or not phase factors are declared included). -/
theorem C9_empty_matrix_identity (c : CQ) (ph : Bool) :
    majFromSympMatrix [] [c] ph = some ⟨2, [([false, false], c)]⟩ := by
  unfold majFromSympMatrix hermitianPhase
  cases ph <;> simp [rowWeight]

theorem npAllclose_refl (b : CQ) : npAllclose b b := by
  unfold npAllclose
  rw [sub_self]
  have h0 : CQ.sqAbs 0 = 0 := rfl
  rw [h0]
  simp only [Int.cast_zero, Real.sqrt_zero]
  positivity

theorem forall₂_allclose_refl (l : List CQ) : List.Forall₂ npAllclose l l := by
  induction l with
  | nil => exact List.Forall₂.nil
  | cons a l ih => exact List.Forall₂.cons (npAllclose_refl a) ih

/-- Claim C10: `MajoranaOp.__eq__` first cleans both operands and pads the
smaller cleaned matrix with trailing zero columns; unequal cleaned term
counts immediately give `False`, and two operators over different site
counts compare equal whenever their cleaned-up, zero-padded terms and
coefficients agree (`np.allclose` holds on equal coefficient vectors). -/
theorem C10_majorana_eq (A B : MajoranaOp) :
    (A.cleanup.terms.length ≠ B.cleanup.terms.length → ¬ majEq A B) ∧
    ((A.cleanup.padTo (max A.cleanup.n_sites B.cleanup.n_sites)).terms =
        (B.cleanup.padTo (max A.cleanup.n_sites B.cleanup.n_sites)).terms → majEq A B) := by
  constructor
  · intro hne hmaj
    exact hne hmaj.1
  · intro hpad
    have hcoeff : A.cleanup.terms.map Prod.snd = B.cleanup.terms.map Prod.snd := by
      have hmap := congrArg (List.map Prod.snd) hpad
      simpa [MajoranaOp.padTo, List.map_map, Function.comp] using hmap
    have hlen : A.cleanup.terms.length = B.cleanup.terms.length := by
      have hmap := congrArg List.length hpad
      simpa [MajoranaOp.padTo] using hmap
    refine ⟨hlen, congrArg (List.map Prod.fst) hpad, ?_⟩
    rw [hcoeff]
    exact forall₂_allclose_refl _

/-- Witness for C10: a 2-site and a 4-site operator agreeing on the common
support compare equal. -/
theorem C10_majorana_eq_witness :
    ((⟨2, [([true, true], 1)]⟩ : MajoranaOp).cleanup.padTo
        (max (⟨2, [([true, true], 1)]⟩ : MajoranaOp).cleanup.n_sites
          (⟨4, [([true, true, false, false], 1)]⟩ : MajoranaOp).cleanup.n_sites)).terms =
      ((⟨4, [([true, true, false, false], 1)]⟩ : MajoranaOp).cleanup.padTo
        (max (⟨2, [([true, true], 1)]⟩ : MajoranaOp).cleanup.n_sites
          (⟨4, [([true, true, false, false], 1)]⟩ : MajoranaOp).cleanup.n_sites)).terms ∧
    majEq ⟨2, [([true, true], 1)]⟩ ⟨4, [([true, true, false, false], 1)]⟩ :=
  ⟨by decide,
    (C10_majorana_eq ⟨2, [([true, true], 1)]⟩ ⟨4, [([true, true, false, false], 1)]⟩).2
      (by decide)⟩

end Symmer
